import Mathlib

set_option maxHeartbeats 1000000

namespace BrainMaze

/-! Shallow embedding of `src/Maze_Generation.py` from the brain-training-game
repository: the bounded `Stack`, the per-cell wall and flag state, the
randomised depth-first maze generation, the hint search `find_exit_dfs`, and
the role-flag assignment in `Maze.__init__`.  Python recursion and while-loops
are modelled with an explicit fuel parameter; randomness is an oracle
parameter (a shuffle function and explicit position choices). -/

/-- Grid positions are (row, column) pairs: the identity of a cell in the
source, where they are derived from pixel coordinates by integer division. -/
abbrev Pos : Type := Nat × Nat

/-- The four wall directions, mirroring the keys of the Python walls dict. -/
inductive Wall : Type
  | top
  | right
  | bottom
  | left
deriving DecidableEq, Repr

/-- State of one cell: the four wall flags (`__walls`, all `True` at creation),
the generation flag (`__visited`), the hint flag (`__visited_dfs`) and the
three role flags (`__exit`, `__start`, `__exercise_present`). -/
structure Cell : Type where
  top : Bool
  right : Bool
  bottom : Bool
  left : Bool
  visited : Bool
  visited_dfs : Bool
  exitFlag : Bool
  startFlag : Bool
  exercise_present : Bool
deriving DecidableEq, Repr

/-- A freshly constructed cell (`Cell.__init__`): fully walled, no flags. -/
def Cell.init : Cell :=
  { top := true, right := true, bottom := true, left := true,
    visited := false, visited_dfs := false,
    exitFlag := false, startFlag := false, exercise_present := false }

/-- Read one wall flag of a cell. -/
def Cell.wall (c : Cell) : Wall → Bool
  | .top => c.top
  | .right => c.right
  | .bottom => c.bottom
  | .left => c.left

/-- `Cell.set_walls(wall_to_be_changed, value)`. -/
def Cell.set_walls (c : Cell) : Wall → Bool → Cell
  | .top, b => { c with top := b }
  | .right, b => { c with right := b }
  | .bottom, b => { c with bottom := b }
  | .left, b => { c with left := b }

/-- Python list indexing `l[i]`: non-negative indices from the front,
negative indices from the back, `none` for the out-of-range `IndexError`. -/
def pyIndex {α : Type} (l : List α) (i : Int) : Option α :=
  if 0 ≤ i then l[i.toNat]?
  else if 0 ≤ i + l.length then l[(i + l.length).toNat]? else none

/-- The array-backed bounded stack of the source: a fixed list of slots
(initialised to `None`, so each slot holds an `Option`) and an `Int` stack
pointer that is `-1` when the stack is empty. -/
structure Stack (α : Type) : Type where
  items : List (Option α)
  stackpointer : Int
deriving DecidableEq, Repr

/-- `Stack.__init__(maxsize)`: `maxsize` empty slots, pointer at `-1`. -/
def Stack.make (α : Type) (maxsize : Nat) : Stack α :=
  { items := List.replicate maxsize none, stackpointer := -1 }

/-- `Stack.push`: when the stack is not full, advance the pointer and store
the item; otherwise do nothing (the item is silently dropped).  In every
reachable state the pointer is at least `-1`, so the stored index is the
Python index `stackpointer + 1`. -/
def Stack.push {α : Type} (s : Stack α) (item : α) : Stack α :=
  if s.stackpointer ≠ (s.items.length : Int) - 1 then
    { items := s.items.set (s.stackpointer + 1).toNat (some item),
      stackpointer := s.stackpointer + 1 }
  else s

/-- `Stack.pop`: on an empty stack do nothing and return `None`; otherwise
retreat the pointer and return the slot it pointed to.  In every reachable
non-empty state that index is in range, so the `IndexError` branch of
`pyIndex` (flattened here to `none`) never fires. -/
def Stack.pop {α : Type} (s : Stack α) : Option α × Stack α :=
  if s.stackpointer ≠ -1 then
    ((pyIndex s.items s.stackpointer).getD none,
     { s with stackpointer := s.stackpointer - 1 })
  else (none, s)

/-- `Stack.peek`: `self.items[self.stackpointer]`, with Python indexing.  The
outer `Option` is the `IndexError` case, the inner one the slot content. -/
def Stack.peek {α : Type} (s : Stack α) : Option (Option α) :=
  pyIndex s.items s.stackpointer

/-- `Stack.is_empty`. -/
def Stack.is_empty {α : Type} (s : Stack α) : Bool :=
  s.stackpointer = -1

/-- `Stack.is_full`. -/
def Stack.is_full {α : Type} (s : Stack α) : Bool :=
  s.stackpointer = (s.items.length : Int) - 1

/-- A stack operation, used to describe arbitrary client interaction. -/
inductive StackOp (α : Type) : Type
  | pushOp (x : α)
  | popOp
deriving DecidableEq, Repr

/-- Apply one stack operation (the value returned by `pop` is discarded). -/
def runOp {α : Type} (s : Stack α) : StackOp α → Stack α
  | .pushOp x => s.push x
  | .popOp => (s.pop).2

/-- Apply a list of stack operations from left to right. -/
def runOps {α : Type} (s : Stack α) : List (StackOp α) → Stack α
  | [] => s
  | op :: ops => runOps (runOp s op) ops

/-- All intermediate states (including first and last) of a run. -/
def opStates {α : Type} (s : Stack α) : List (StackOp α) → List (Stack α)
  | [] => [s]
  | op :: ops => s :: opStates (runOp s op) ops

/-- A map assigning to every position the state of its cell.  Positions
outside the grid are carried along for totality; the algorithms only ever
touch in-grid positions. -/
abbrev CellMap : Type := Pos → Cell

/-- Update the cell at one position. -/
def updCell (m : CellMap) (p : Pos) (f : Cell → Cell) : CellMap :=
  fun q => if q = p then f (m q) else m q

/-- Membership of a position in the rows × cols grid. -/
def InGrid (rows cols : Nat) (p : Pos) : Prop :=
  p.1 < rows ∧ p.2 < cols

instance (rows cols : Nat) (p : Pos) : Decidable (InGrid rows cols p) := by
  unfold InGrid; infer_instance

/-- The grid neighbour to the right of `p`. -/
def rightOf (p : Pos) : Pos := (p.1, p.2 + 1)

/-- The grid neighbour below `p`. -/
def belowOf (p : Pos) : Pos := (p.1 + 1, p.2)

/-- `Cell.check_adjacent_cells` (unshuffled): the in-bounds grid neighbours of
`p`, appended in the source order left, right, above, below. -/
def check_adjacent_cells (rows cols : Nat) (p : Pos) : List Pos :=
  (if 1 ≤ p.2 then [(p.1, p.2 - 1)] else []) ++
  (if p.2 + 1 < cols then [(p.1, p.2 + 1)] else []) ++
  (if 1 ≤ p.1 then [(p.1 - 1, p.2)] else []) ++
  (if p.1 + 1 < rows then [(p.1 + 1, p.2)] else [])

/-- `Maze.remove_walls(current_cell, next_cell)`: four independent checks on
the coordinate differences; in the source `x` is the column (`.2` here) and
`y` the row (`.1` here), and each firing branch clears the matching flag on
`next_cell` and then on `current_cell`. -/
def remove_walls (m : CellMap) (cur nxt : Pos) : CellMap :=
  let m1 := if (cur.1 : Int) - (nxt.1 : Int) = 1 then
      updCell (updCell m nxt (fun c => c.set_walls .bottom false)) cur
        (fun c => c.set_walls .top false)
    else m
  let m2 := if (cur.1 : Int) - (nxt.1 : Int) = -1 then
      updCell (updCell m1 nxt (fun c => c.set_walls .top false)) cur
        (fun c => c.set_walls .bottom false)
    else m1
  let m3 := if (cur.2 : Int) - (nxt.2 : Int) = -1 then
      updCell (updCell m2 nxt (fun c => c.set_walls .left false)) cur
        (fun c => c.set_walls .right false)
    else m2
  if (cur.2 : Int) - (nxt.2 : Int) = 1 then
      updCell (updCell m3 nxt (fun c => c.set_walls .right false)) cur
        (fun c => c.set_walls .left false)
  else m3

/-- Whole state mutated by `maze_generation_dfs`: the cell grid, the bounded
stack `self.__STACK`, the list `self.__visited_cells`, and a counter that
feeds the shuffle oracle. -/
structure GenState : Type where
  cells : CellMap
  stack : Stack Pos
  visited_cells : List Pos
  ctr : Nat

/-- Lines 274–276 of the source: `current_cell.set_visited(True)` followed by
appending the peeked cell (the same cell, the stack being unchanged in
between) to `self.__visited_cells`. -/
def markVisited (cur : Pos) (st : GenState) : GenState :=
  { st with cells := updCell st.cells cur (fun c => { c with visited := true }),
            visited_cells := st.visited_cells ++ [cur] }

/-- The for-loop of lines 279–284: for each connected cell not yet in
`visited_cells`, push it, carve the shared wall, and recurse (`rec`). -/
def processList (rec : GenState → GenState) (cur : Pos) :
    List Pos → GenState → GenState
  | [], st => st
  | n :: rest, st =>
    let st' :=
      if n ∈ st.visited_cells then st
      else
        let st1 := { st with stack := st.stack.push n }
        let st2 := { st1 with cells := remove_walls st1.cells cur n }
        rec st2
    processList rec cur rest st'

/-- `Maze.maze_generation_dfs`, with the call recursion bounded by fuel (the
theorems show that `rows * cols` fuel runs it to completion) and the
`random.shuffle` of the adjacency list supplied by an oracle keyed by a call
counter.  A peeked `None` slot skips the body, like the source's `is not None`
guard; under the invariants of the theorems the peek never fails. -/
def maze_generation_dfs (shuffle : Nat → List Pos → List Pos)
    (rows cols : Nat) : Nat → GenState → GenState
  | 0, st => st
  | fuel + 1, st =>
    match st.stack.peek with
    | some (some cur) =>
      let st1 := markVisited cur st
      let adj := shuffle st1.ctr (check_adjacent_cells rows cols cur)
      let st2 := { st1 with ctr := st1.ctr + 1 }
      let st3 := processList (maze_generation_dfs shuffle rows cols fuel) cur adj st2
      { st3 with stack := (st3.stack.pop).2 }
    | _ => st

/-- The generation-relevant part of `Maze.__init__`: fresh fully-walled cells,
the bounded stack of capacity `rows * cols` with the start cell `(0, 0)`
pushed, and an empty visited list. -/
def initGenState (rows cols : Nat) : GenState :=
  { cells := fun _ => Cell.init
    stack := (Stack.make Pos (rows * cols)).push (0, 0)
    visited_cells := []
    ctr := 0 }

/-- The full generation run of `Maze.__init__`: the bounded-fuel
`maze_generation_dfs` started on the freshly initialised state; `rows * cols`
fuel is enough for the recursion to complete (the call depth never exceeds
the number of cells). -/
def genRun (shuffle : Nat → List Pos → List Pos) (rows cols : Nat) : GenState :=
  maze_generation_dfs shuffle rows cols (rows * cols) (initGenState rows cols)

/-- The wall between `p` and its right neighbour is absent on both sides. -/
def openRight (m : CellMap) (p : Pos) : Prop :=
  (m p).right = false ∧ (m (rightOf p)).left = false

instance (m : CellMap) (p : Pos) : Decidable (openRight m p) := by
  unfold openRight; infer_instance

/-- The wall between `p` and the cell below it is absent on both sides. -/
def openBelow (m : CellMap) (p : Pos) : Prop :=
  (m p).bottom = false ∧ (m (belowOf p)).top = false

instance (m : CellMap) (p : Pos) : Decidable (openBelow m p) := by
  unfold openBelow; infer_instance

/-- Open edge between two in-grid, grid-adjacent cells: the shared wall flag
is absent on both sides. -/
def openAdj (rows cols : Nat) (m : CellMap) (p q : Pos) : Prop :=
  InGrid rows cols p ∧ InGrid rows cols q ∧
    ((q = rightOf p ∧ openRight m p) ∨ (p = rightOf q ∧ openRight m q) ∨
     (q = belowOf p ∧ openBelow m p) ∨ (p = belowOf q ∧ openBelow m q))

instance (rows cols : Nat) (m : CellMap) (p q : Pos) :
    Decidable (openAdj rows cols m p q) := by
  unfold openAdj; infer_instance

/-- The open-edge graph of a wall configuration. -/
def openGraph (rows cols : Nat) (m : CellMap) : SimpleGraph Pos where
  Adj p q := openAdj rows cols m p q
  symm := by
    intro p q h
    obtain ⟨hp, hq, hc⟩ := h
    refine ⟨hq, hp, ?_⟩
    tauto
  loopless := by
    intro p h
    obtain ⟨-, -, hc⟩ := h
    rcases hc with ⟨h, -⟩ | ⟨h, -⟩ | ⟨h, -⟩ | ⟨h, -⟩ <;>
      · have h2 := congrArg Prod.snd (id h)
        have h1 := congrArg Prod.fst (id h)
        simp only [rightOf, belowOf] at h1 h2
        omega

/-- Number of open edges in the grid: one token per open right wall and one
per open bottom wall of an in-grid cell with an in-grid partner. -/
def openEdgeCount (rows cols : Nat) (m : CellMap) : Nat :=
  Finset.sum (Finset.range rows ×ˢ Finset.range cols) fun p =>
    (if p.2 + 1 < cols ∧ openRight m p then 1 else 0) +
    (if p.1 + 1 < rows ∧ openBelow m p then 1 else 0)

/-- Wall symmetry: every interior wall flag agrees on its two sides. -/
def WallSym (rows cols : Nat) (m : CellMap) : Prop :=
  ∀ p : Pos, InGrid rows cols p →
    (p.2 + 1 < cols → (m p).right = (m (rightOf p)).left) ∧
    (p.1 + 1 < rows → (m p).bottom = (m (belowOf p)).top)

/-- Two positions are grid-adjacent: same row and columns differing by one,
or same column and rows differing by one. -/
def GridAdjacent (p q : Pos) : Prop :=
  (p.1 = q.1 ∧ (q.2 = p.2 + 1 ∨ p.2 = q.2 + 1)) ∨
  (p.2 = q.2 ∧ (q.1 = p.1 + 1 ∨ p.1 = q.1 + 1))

instance (p q : Pos) : Decidable (GridAdjacent p q) := by
  unfold GridAdjacent; infer_instance

/-- All four walls of a cell are present. -/
def wallsIntact (c : Cell) : Prop :=
  c.top = true ∧ c.right = true ∧ c.bottom = true ∧ c.left = true

instance (c : Cell) : Decidable (wallsIntact c) := by
  unfold wallsIntact; infer_instance

/-- Reachability along open edges. -/
def ReachOpen (rows cols : Nat) (m : CellMap) : Pos → Pos → Prop :=
  Relation.ReflTransGen (openAdj rows cols m)

/-- State read and written by `find_exit_dfs`: the cell grid, the persistent
bounded stack `self.__find_exit_stack`, the per-call visited set and the
per-call parent dict `PathToExit`. -/
structure SearchState : Type where
  cells : CellMap
  find_exit_stack : Stack Pos
  visited : List Pos
  pathToExit : Pos → Option Pos

/-- The four validity checks of lines 311–326, applied to one adjacent cell
`c` of `cur`: each check requires the matching wall pair to be absent on both
sides, the matching coordinate relation (column for left/right and row for
top/bottom, compared as Python ints), and `c` not flagged by a previous hint;
each passing check appends `c` once. -/
def validCandidates (m : CellMap) (cur c : Pos) : List Pos :=
  (if (m cur).right = false ∧ (m c).left = false ∧
      (cur.2 : Int) = (c.2 : Int) - 1 ∧ (m c).visited_dfs = false
   then [c] else []) ++
  (if (m cur).left = false ∧ (m c).right = false ∧
      (cur.2 : Int) = (c.2 : Int) + 1 ∧ (m c).visited_dfs = false
   then [c] else []) ++
  (if (m cur).top = false ∧ (m c).bottom = false ∧
      (cur.1 : Int) = (c.1 : Int) + 1 ∧ (m c).visited_dfs = false
   then [c] else []) ++
  (if (m cur).bottom = false ∧ (m c).top = false ∧
      (cur.1 : Int) = (c.1 : Int) - 1 ∧ (m c).visited_dfs = false
   then [c] else [])

/-- `valid_cells` of one loop iteration: the candidates collected over the
unshuffled adjacency list of `cur`. -/
def valid_cells (m : CellMap) (rows cols : Nat) (cur : Pos) : List Pos :=
  (check_adjacent_cells rows cols cur).flatMap (validCandidates m cur)

/-- Body of one search-loop iteration for a non-exit popped cell `cur`
(lines 298–331): add `cur` to the visited set, then push every valid
neighbour not in the visited set and write `PathToExit[neighbour] = cur`,
overwriting any previous entry. -/
def searchVisit (rows cols : Nat) (st : SearchState) (cur : Pos) : SearchState :=
  let visited' := cur :: st.visited
  (valid_cells st.cells rows cols cur).foldl
    (fun s n =>
      if n ∈ visited' then s
      else { s with find_exit_stack := s.find_exit_stack.push n,
                    pathToExit := fun q => if q = n then some cur else s.pathToExit q })
    { st with visited := visited' }

/-- How the search's while loop ended. -/
inductive LoopExit : Type
  | foundExit
  | emptied
  | popNone
  | outOfFuel
deriving DecidableEq, Repr

/-- The while loop of lines 292–331, bounded by fuel.  `popNone` marks the
(unreachable in program runs) case of a live slot holding `None`, where the
source would crash calling a method on `None`. -/
def findExitLoop (rows cols : Nat) (exitCell : Pos) :
    Nat → SearchState → SearchState × LoopExit
  | 0, st => (st, .outOfFuel)
  | fuel + 1, st =>
    if st.find_exit_stack.is_empty then (st, .emptied)
    else
      let pr := st.find_exit_stack.pop
      let st' := { st with find_exit_stack := pr.2 }
      match pr.1 with
      | none => (st', .popNone)
      | some cur =>
        if cur = exitCell then (st', .foundExit)
        else findExitLoop rows cols exitCell fuel (searchVisit rows cols st' cur)

/-- Result of the backward reconstruction of lines 333–337. -/
inductive RecResult : Type
  | ok (fp : List (Pos × Pos))
  | keyError
  | noFuel
deriving DecidableEq, Repr

/-- Lines 333–337: walk backward from the exit through `PathToExit` until the
player's cell is reached, recording `ForwardPath[parent] = cell` in insertion
order; a missing key is Python's uncaught `KeyError`. -/
def reconstructPath (pathToExit : Pos → Option Pos) (player : Pos) :
    Nat → Pos → RecResult
  | 0, _ => .noFuel
  | fuel + 1, cell =>
    if cell = player then .ok []
    else
      match pathToExit cell with
      | none => .keyError
      | some parent =>
        match reconstructPath pathToExit player fuel parent with
        | .ok fp => .ok ((parent, cell) :: fp)
        | r => r

/-- Outcome of a whole `find_exit_dfs` call.  `keyError` is the uncaught
Python `KeyError` of line 336; `crashed` covers the `None`-slot crash inside
the loop; `noFuel` is the fuel artefact of the model. -/
inductive HintOutcome : Type
  | success (fp : List (Pos × Pos))
  | keyError
  | crashed
  | noFuel
deriving DecidableEq, Repr

/-- Result state of a whole `find_exit_dfs` call. -/
structure HintRun : Type where
  cells : CellMap
  stack : Stack Pos
  outcome : HintOutcome

/-- `Maze.find_exit_dfs(Player_Current_Cell)`: push the player's cell on the
persistent stack, run the search loop with a fresh visited set and a fresh
`PathToExit`, then — whether the loop broke at the exit or emptied the
stack — reconstruct `ForwardPath` backward from the exit cell and flag every
one of its values with `set_visited_dfs(True)`. -/
def find_exit_dfs (rows cols : Nat) (exitCell player : Pos) (fuel : Nat)
    (cells0 : CellMap) (stack0 : Stack Pos) : HintRun :=
  let st0 : SearchState :=
    { cells := cells0, find_exit_stack := stack0.push player,
      visited := [], pathToExit := fun _ => none }
  let res := findExitLoop rows cols exitCell fuel st0
  let st1 := res.1
  match res.2 with
  | .outOfFuel => { cells := st1.cells, stack := st1.find_exit_stack, outcome := .noFuel }
  | .popNone => { cells := st1.cells, stack := st1.find_exit_stack, outcome := .crashed }
  | _ =>
    match reconstructPath st1.pathToExit player fuel exitCell with
    | .ok fp =>
      { cells := fp.foldl
          (fun mc pr => updCell mc pr.2 (fun c => { c with visited_dfs := true })) st1.cells,
        stack := st1.find_exit_stack,
        outcome := .success fp }
    | .keyError => { cells := st1.cells, stack := st1.find_exit_stack, outcome := .keyError }
    | .noFuel => { cells := st1.cells, stack := st1.find_exit_stack, outcome := .noFuel }

/-- The ordered hint path encoded by a successful reconstruction: the value
list of `ForwardPath` in insertion order runs from the exit backward, so the
forward path — from the cell adjacent to the player up to the exit — is its
reverse. -/
def hintPath (fp : List (Pos × Pos)) : List Pos :=
  (fp.map Prod.snd).reverse

/-- Line 212: flag the chosen exit cell. -/
def setExitCell (m : CellMap) (p : Pos) : CellMap :=
  updCell m p (fun c => { c with exitFlag := true })

/-- Lines 216–223: each candidate exercise position (the source draws
`grid[randint(4, rows) - 1][randint(4, cols) - 1]`) is flagged as an exercise
cell when it is neither the exit cell nor the start cell at that moment. -/
def placeExercises (choices : List Pos) (m : CellMap) : CellMap :=
  choices.foldl
    (fun mc p =>
      if (mc p).exitFlag = false ∧ (mc p).startFlag = false
      then updCell mc p (fun c => { c with exercise_present := true })
      else mc) m

/-- Line 226: flag the start cell `(0, 0)` (after the exercise loop). -/
def setStartCell (m : CellMap) : CellMap :=
  updCell m (0, 0) (fun c => { c with startFlag := true })

/-- The role-flag part of `Maze.__init__`, in source order: exit first, then
the exercise cells, then the start cell. -/
def mazeRoleFlags (exitPos : Pos) (choices : List Pos) : CellMap :=
  setStartCell (placeExercises choices (setExitCell (fun _ => Cell.init) exitPos))

/-- The trivial shuffle oracle (a permutation, as `random.shuffle` is). -/
def idShuffle : Nat → List Pos → List Pos := fun _ l => l

/-- A 1×2 maze whose single interior wall is open: the unique perfect maze on
that grid. -/
def corridorCells : CellMap := fun p =>
  if p = ((0, 0) : Pos) then { Cell.init with right := false }
  else if p = ((0, 1) : Pos) then { Cell.init with left := false }
  else Cell.init

/-- A wall-symmetric 2×2 configuration with all four interior walls open (a
cycle in the open-edge graph, as after a corrupted generation). -/
def openCells2 : CellMap := fun p =>
  if p = ((0, 0) : Pos) then { Cell.init with right := false, bottom := false }
  else if p = ((0, 1) : Pos) then { Cell.init with left := false, bottom := false }
  else if p = ((1, 0) : Pos) then { Cell.init with top := false, right := false }
  else if p = ((1, 1) : Pos) then { Cell.init with top := false, left := false }
  else Cell.init

/-- Search state at the start of the loop for a hint request from `(0, 0)` on
the all-open 2×2 grid (player already pushed). -/
def searchStart2 : SearchState :=
  { cells := openCells2, find_exit_stack := (Stack.make Pos 4).push (0, 0),
    visited := [], pathToExit := fun _ => none }

/-- Intermediate search state in which `(0, 1)` has already been discovered
from `(0, 0)` and the cells `(0, 0)` and `(1, 0)` have been expanded. -/
def searchMid2 : SearchState :=
  { cells := openCells2, find_exit_stack := Stack.make Pos 4,
    visited := [(1, 0), (0, 0)],
    pathToExit := fun q => if q = ((0, 1) : Pos) then some (0, 0) else none }

/-- A full two-slot stack holding stale items. -/
def stackFull2 : Stack Nat :=
  { items := [some 4, some 7], stackpointer := 1 }

/-- Two cells have identical wall flags. -/
def WallsEqAt (c c' : Cell) : Prop :=
  c.top = c'.top ∧ c.right = c'.right ∧ c.bottom = c'.bottom ∧ c.left = c'.left

/-- Two cell maps have identical wall flags everywhere. -/
def WallsEq (m m' : CellMap) : Prop :=
  ∀ p : Pos, WallsEqAt (m p) (m' p)

/-- Every wall absent in `m` is also absent in `m'` (walls are only ever
removed, never restored). -/
def wallsSubset (m m' : CellMap) : Prop :=
  ∀ p : Pos,
    ((m p).top = false → (m' p).top = false) ∧
    ((m p).right = false → (m' p).right = false) ∧
    ((m p).bottom = false → (m' p).bottom = false) ∧
    ((m p).left = false → (m' p).left = false)

/-- Invariant of the generation state used by the main induction. -/
structure GenInv (rows cols : Nat) (st : GenState) : Prop where
  slen : st.stack.items.length = rows * cols
  nd : st.visited_cells.Nodup
  vgrid : ∀ p ∈ st.visited_cells, InGrid rows cols p
  flags : ∀ p : Pos, ((st.cells p).visited = true) ↔ p ∈ st.visited_cells
  sym : WallSym rows cols st.cells
  acyc : (openGraph rows cols st.cells).IsAcyclic
  reach : ∀ p ∈ st.visited_cells, ReachOpen rows cols st.cells (0, 0) p

/-- Postcondition of one completed `maze_generation_dfs` call entered with
`cur` freshly pushed at stack depth `d` while the cells of `A` are still
being expanded lower on the stack. -/
structure GenOut (rows cols : Nat) (st st' : GenState) (cur : Pos)
    (A : List Pos) (d : Nat) : Prop where
  inv : GenInv rows cols st'
  grows : ∃ tail, st'.visited_cells = st.visited_cells ++ tail
  curIn : cur ∈ st'.visited_cells
  sp : st'.stack.stackpointer = (d : Int) - 1
  intact : ∀ p : Pos, ¬ p ∈ st'.visited_cells → wallsIntact (st'.cells p)
  ec : openEdgeCount rows cols st'.cells + 1 = st'.visited_cells.length
  closure : ∀ p ∈ st'.visited_cells, ¬ p ∈ A →
    ∀ q ∈ check_adjacent_cells rows cols p, q ∈ st'.visited_cells

/-- Postcondition of the neighbour loop `processList` run by the call that is
expanding `cur` at stack depth `d` above the still-active cells `A`. -/
structure PLOut (rows cols : Nat) (st st' : GenState) (cur : Pos)
    (A : List Pos) (d : Nat) (l : List Pos) : Prop where
  inv : GenInv rows cols st'
  grows : ∃ tail, st'.visited_cells = st.visited_cells ++ tail
  sp : st'.stack.stackpointer = (d : Int)
  intact : ∀ p : Pos, ¬ p ∈ st'.visited_cells → wallsIntact (st'.cells p)
  ec : openEdgeCount rows cols st'.cells + 1 = st'.visited_cells.length
  closure : ∀ p ∈ st'.visited_cells, ¬ p ∈ A → p ≠ cur →
    ∀ q ∈ check_adjacent_cells rows cols p, q ∈ st'.visited_cells
  procd : ∀ n ∈ l, n ∈ st'.visited_cells

/-- Precondition of a `maze_generation_dfs` call: `cur` is the freshly pushed
yet unvisited top of the stack at depth `d`, the cells of `A` are the still
active (pushed, unfinished) ancestors, every finished visited cell already
has all its neighbours visited, and the only carved wall of an unvisited
cell is the one between `cur` and its parent. -/
structure GenPre (rows cols : Nat) (st : GenState) (cur : Pos)
    (A : List Pos) (d : Nat) : Prop where
  inv : GenInv rows cols st
  hpeek : st.stack.peek = some (some cur)
  hsp : st.stack.stackpointer = (d : Int)
  hd : A.length = d
  hAsub : ∀ p ∈ A, p ∈ st.visited_cells
  hAnd : A.Nodup
  hcurA : ¬ cur ∈ A
  hcurV : ¬ cur ∈ st.visited_cells
  hcurG : InGrid rows cols cur
  hreach : ReachOpen rows cols st.cells (0, 0) cur
  hint : ∀ p : Pos, ¬ p ∈ st.visited_cells → p ≠ cur → wallsIntact (st.cells p)
  hec : openEdgeCount rows cols st.cells = st.visited_cells.length
  hclo : ∀ p ∈ st.visited_cells, ¬ p ∈ A →
    ∀ q ∈ check_adjacent_cells rows cols p, q ∈ st.visited_cells

/-- Loop invariant of the neighbour loop of the call expanding `cur` at
depth `d` over the active ancestors `A`. -/
structure PLPre (rows cols : Nat) (st : GenState) (cur : Pos)
    (A : List Pos) (d : Nat) : Prop where
  inv : GenInv rows cols st
  spl : st.stack.stackpointer = (d : Int)
  curV : cur ∈ st.visited_cells
  hd : A.length = d
  hAsub : ∀ p ∈ A, p ∈ st.visited_cells
  hAnd : (A ++ [cur]).Nodup
  intact : ∀ p : Pos, ¬ p ∈ st.visited_cells → wallsIntact (st.cells p)
  ec : openEdgeCount rows cols st.cells + 1 = st.visited_cells.length
  closure : ∀ p ∈ st.visited_cells, ¬ p ∈ A → p ≠ cur →
    ∀ q ∈ check_adjacent_cells rows cols p, q ∈ st.visited_cells

/-- Invariant of the hint-search loop: the cells are never modified, every
parent entry records an open adjacency, and every live or stale stack slot
holds an in-grid cell. -/
def SearchInv (rows cols : Nat) (cells0 : CellMap) (st : SearchState) : Prop :=
  st.cells = cells0 ∧
  (∀ x y : Pos, st.pathToExit x = some y → openAdj rows cols cells0 y x) ∧
  (∀ p : Pos, some p ∈ st.find_exit_stack.items → InGrid rows cols p)

/-! ### Theorems about the bounded stack (claims C7 and C10). -/

/-- Claim C7: for a bounded stack of capacity `N` (the length of the backing
array), pushing when the stack already holds `N` items (pointer at the last
slot) silently drops the item and leaves the state unchanged, and popping
when the stack is empty is a no-op that returns the explicit empty signal
`none` (no stored item) with the state unchanged — neither operation can
fail. -/
theorem C7_bounded_stack_noop {α : Type} (s : Stack α) (x : α) :
    (s.stackpointer = (s.items.length : Int) - 1 → s.push x = s) ∧
    (s.stackpointer = -1 → s.pop = (none, s)) := by
  constructor
  · intro h
    simp [Stack.push, h]
  · intro h
    simp [Stack.pop, h]

/-- Witness for C7: a full two-slot stack drops a push unchanged, and a fresh
empty stack pops to the empty signal. -/
theorem C7_bounded_stack_noop_witness :
    (stackFull2.push 9 = stackFull2) ∧
    ((Stack.make Nat 2).pop = (none, Stack.make Nat 2)) :=
  ⟨(C7_bounded_stack_noop stackFull2 9).1 (by decide),
   (C7_bounded_stack_noop (Stack.make Nat 2) 9).2 (by decide)⟩

/-- Python indexing at a non-negative index. -/
theorem pyIndex_nonneg {α : Type} (l : List α) (k : Nat) :
    pyIndex l (k : Int) = l[k]? := by
  simp [pyIndex]

/-- Python indexing at `-1` returns the last slot. -/
theorem pyIndex_neg_one {α : Type} (l : List α) (h : 1 ≤ l.length) :
    pyIndex l (-1) = l[l.length - 1]? := by
  unfold pyIndex
  rw [if_neg (by omega), if_pos (by omega)]
  congr 1
  omega

/-- A state is always among the states of its own run. -/
theorem self_mem_opStates {α : Type} (s : Stack α) (ops : List (StackOp α)) :
    s ∈ opStates s ops := by
  cases ops <;> simp [opStates]

/-- If no state of a run is ever full, the last backing slot is never
written: it still holds its initial `none`. -/
theorem runOps_last_slot {α : Type} (n : Nat) (hn : 1 ≤ n) :
    ∀ (ops : List (StackOp α)) (s : Stack α),
      s.items.length = n →
      -1 ≤ s.stackpointer →
      s.items[n - 1]? = some none →
      (∀ s' ∈ opStates s ops, s'.stackpointer ≠ (n : Int) - 1) →
      (runOps s ops).items[n - 1]? = some none := by
  intro ops
  induction ops with
  | nil =>
    intro s _ _ h _
    exact h
  | cons op rest ih =>
    intro s hlen hsp hslot hnf
    have hs : s.stackpointer ≠ (n : Int) - 1 := hnf s (self_mem_opStates s _)
    have hnf' : ∀ s' ∈ opStates (runOp s op) rest, s'.stackpointer ≠ (n : Int) - 1 := by
      intro s' hs'
      exact hnf s' (by simp [opStates, hs'])
    show (runOps (runOp s op) rest).items[n - 1]? = some none
    cases op with
    | popOp =>
      refine ih (s.pop).2 ?_ ?_ ?_ hnf'
      · unfold Stack.pop
        split <;> simpa
      · unfold Stack.pop
        split <;> simp <;> omega
      · unfold Stack.pop
        split <;> simpa
    | pushOp x =>
      have hguard : s.stackpointer ≠ (s.items.length : Int) - 1 := by
        rw [hlen]; exact hs
      have hpush : s.push x =
          { items := s.items.set (s.stackpointer + 1).toNat (some x),
            stackpointer := s.stackpointer + 1 } := by
        unfold Stack.push
        rw [if_pos hguard]
      have hfull : (s.push x).stackpointer ≠ (n : Int) - 1 :=
        hnf' (runOp s (.pushOp x)) (self_mem_opStates _ _)
      have hne : (s.stackpointer + 1).toNat ≠ n - 1 := by
        rw [hpush] at hfull
        simp only at hfull
        omega
      refine ih (s.push x) ?_ ?_ ?_ hnf'
      · rw [hpush]; simpa
      · rw [hpush]; simp; omega
      · rw [hpush]
        simp only
        rw [List.getElem?_set_ne hne]
        exact hslot

/-- Claim C10: `peek` on an empty stack (pointer `-1`) does not signal
emptiness and does not raise: by Python negative indexing it returns the last
slot `items[N-1]` of the backing array; that slot is still `None` after any
run of operations on a fresh stack during which the stack never became full
(otherwise it may hold a stale previously pushed item); and `peek` is total
(no `IndexError`) for every pointer in `[-1, N-1]` when the capacity `N` is
at least 1. -/
theorem C10_peek_total (α : Type) (s : Stack α) (n : Nat) (ops : List (StackOp α)) :
    (s.stackpointer = -1 → 1 ≤ s.items.length →
        s.peek = s.items[s.items.length - 1]?) ∧
    (1 ≤ n →
      (∀ s' ∈ opStates (Stack.make α n) ops, s'.stackpointer ≠ (n : Int) - 1) →
      (runOps (Stack.make α n) ops).items[n - 1]? = some none) ∧
    (-1 ≤ s.stackpointer → s.stackpointer ≤ (s.items.length : Int) - 1 →
      1 ≤ s.items.length → (s.peek).isSome = true) := by
  refine ⟨?_, ?_, ?_⟩
  · intro h hl
    rw [Stack.peek, h]
    exact pyIndex_neg_one _ hl
  · intro hn hnf
    refine runOps_last_slot n hn ops (Stack.make α n) (by simp [Stack.make])
      (by simp [Stack.make]) ?_ hnf
    show (List.replicate n (none : Option α))[n - 1]? = some none
    rw [List.getElem?_replicate, if_pos (by omega)]
  · intro h1 h2 h3
    unfold Stack.peek pyIndex
    rcases le_or_lt 0 s.stackpointer with h | h
    · rw [if_pos h]
      have hlt : s.stackpointer.toNat < s.items.length := by omega
      simp [List.getElem?_eq_getElem hlt]
    · rw [if_neg (by omega), if_pos (by omega)]
      have hlt : (s.stackpointer + s.items.length).toNat < s.items.length := by omega
      simp [List.getElem?_eq_getElem hlt]

/-- Witness for C10: a fresh three-slot stack peeks its last slot; a push/pop
run on a two-slot stack never fills it and leaves the last slot `None`. -/
theorem C10_peek_total_witness :
    ((Stack.make Nat 3).peek = (Stack.make Nat 3).items[(Stack.make Nat 3).items.length - 1]?) ∧
    ((runOps (Stack.make Nat 2) [.pushOp 7, .popOp]).items[2 - 1]? = some none) ∧
    (((Stack.make Nat 3).peek).isSome = true) :=
  ⟨(C10_peek_total Nat (Stack.make Nat 3) 2 []).1 (by decide) (by decide),
   (C10_peek_total Nat (Stack.make Nat 3) 2 [.pushOp 7, .popOp]).2.1 (by decide) (by decide),
   (C10_peek_total Nat (Stack.make Nat 3) 2 []).2.2 (by decide) (by decide) (by decide)⟩

/-! ### Role flags of the constructor (claim C9). -/

/-- Updating a position reads back through the update. -/
theorem updCell_self (m : CellMap) (p : Pos) (f : Cell → Cell) :
    updCell m p f p = f (m p) := by
  simp [updCell]

/-- Updating one position leaves every other position unchanged. -/
theorem updCell_other (m : CellMap) (p q : Pos) (f : Cell → Cell) (h : q ≠ p) :
    updCell m p f q = m q := by
  simp [updCell, h]

/-- One step of the exercise-placement fold. -/
theorem placeExercises_cons (c : Pos) (rest : List Pos) (m : CellMap) :
    placeExercises (c :: rest) m =
      placeExercises rest
        (if (m c).exitFlag = false ∧ (m c).startFlag = false
         then updCell m c (fun cc => { cc with exercise_present := true }) else m) := rfl

/-- Exercise placement never touches the exit and start flags. -/
theorem placeExercises_roles (choices : List Pos) :
    ∀ (m : CellMap) (p : Pos),
      (placeExercises choices m p).exitFlag = (m p).exitFlag ∧
      (placeExercises choices m p).startFlag = (m p).startFlag := by
  induction choices with
  | nil => intro m p; exact ⟨rfl, rfl⟩
  | cons c rest ih =>
    intro m p
    rw [placeExercises_cons]
    split
    · rcases ih (updCell m c fun cc => { cc with exercise_present := true }) p with ⟨h1, h2⟩
      rw [h1, h2]
      by_cases hpc : p = c
      · subst hpc; rw [updCell_self]; exact ⟨rfl, rfl⟩
      · rw [updCell_other _ _ _ _ hpc]; exact ⟨rfl, rfl⟩
    · exact ih m p

/-- A cell whose exit or start flag is already set never has its exercise
flag changed by the placement loop. -/
theorem placeExercises_flagged (choices : List Pos) :
    ∀ (m : CellMap) (p : Pos),
      ((m p).exitFlag = true ∨ (m p).startFlag = true) →
      (placeExercises choices m p).exercise_present = (m p).exercise_present := by
  induction choices with
  | nil => intro m p _; rfl
  | cons c rest ih =>
    intro m p hp
    rw [placeExercises_cons]
    split
    · rename_i hc
      have hpc : p ≠ c := by
        rintro rfl
        rcases hp with h | h
        · rw [hc.1] at h; cases h
        · rw [hc.2] at h; cases h
      have hup : updCell m c (fun cc => { cc with exercise_present := true }) p = m p :=
        updCell_other _ _ _ _ hpc
      rw [ih _ p (by rw [hup]; exact hp), hup]
    · exact ih m p hp

/-- A position not among the choices is untouched by the placement loop. -/
theorem placeExercises_not_mem (choices : List Pos) :
    ∀ (m : CellMap) (p : Pos), ¬ p ∈ choices →
      placeExercises choices m p = m p := by
  induction choices with
  | nil => intro m p _; rfl
  | cons c rest ih =>
    intro m p hp
    have hpc : p ≠ c := fun h => hp (by simp [h])
    have hpr : ¬ p ∈ rest := fun h => hp (by simp [h])
    rw [placeExercises_cons]
    split
    · rw [ih _ p hpr, updCell_other _ _ _ _ hpc]
    · exact ih m p hpr

/-- Claim C9: after the constructor's role-flag phase — exit flagged first,
then each exercise candidate (drawn with both indices ≥ 3 by
`randint(4, rows) - 1` and `randint(4, cols) - 1`) flagged only when it is
neither the exit nor the start cell, then the start cell `(0, 0)` flagged —
every cell whose exit or start flag is set has a false exercise flag, for
every choice of exit position and exercise candidates. -/
theorem C9_role_flags_exclusive (rows cols : Nat) (exitPos : Pos) (choices : List Pos)
    (hch : ∀ c ∈ choices, 3 ≤ c.1 ∧ c.1 < rows ∧ 3 ≤ c.2 ∧ c.2 < cols) :
    ∀ p : Pos,
      ((mazeRoleFlags exitPos choices p).exitFlag = true ∨
       (mazeRoleFlags exitPos choices p).startFlag = true) →
      (mazeRoleFlags exitPos choices p).exercise_present = false := by
  intro p hp
  have hex : ∀ q : Pos, (mazeRoleFlags exitPos choices q).exercise_present
      = (placeExercises choices (setExitCell (fun _ => Cell.init) exitPos) q).exercise_present := by
    intro q
    unfold mazeRoleFlags setStartCell
    by_cases h : q = ((0, 0) : Pos)
    · subst h; rw [updCell_self]
    · rw [updCell_other _ _ _ _ h]
  rw [hex]
  by_cases hpe : p = exitPos
  · subst hpe
    rw [placeExercises_flagged choices _ p (Or.inl (by rw [setExitCell, updCell_self]))]
    rw [setExitCell, updCell_self]
    rfl
  · by_cases hp0 : p = ((0, 0) : Pos)
    · have hnm : ¬ p ∈ choices := by
        intro hm
        rcases hch p hm with ⟨h3, -, -, -⟩
        rw [hp0] at h3
        omega
      rw [placeExercises_not_mem choices _ p hnm, setExitCell, updCell_other _ _ _ _ hpe]
      rfl
    · exfalso
      have hbexit : (placeExercises choices (setExitCell (fun _ => Cell.init) exitPos) p).exitFlag
          = false := by
        rw [(placeExercises_roles choices _ p).1, setExitCell, updCell_other _ _ _ _ hpe]
        rfl
      have hbstart : (placeExercises choices (setExitCell (fun _ => Cell.init) exitPos) p).startFlag
          = false := by
        rw [(placeExercises_roles choices _ p).2, setExitCell, updCell_other _ _ _ _ hpe]
        rfl
      rcases hp with h | h
      · have : (mazeRoleFlags exitPos choices p).exitFlag = false := by
          unfold mazeRoleFlags setStartCell
          rw [updCell_other _ _ _ _ hp0]
          exact hbexit
        rw [this] at h
        cases h
      · have : (mazeRoleFlags exitPos choices p).startFlag = false := by
          unfold mazeRoleFlags setStartCell
          rw [updCell_other _ _ _ _ hp0]
          exact hbstart
        rw [this] at h
        cases h

/-- Witness for C9 on a 5×5 grid with exit `(4, 4)` and one exercise cell at
`(3, 3)`: neither the exit cell nor the start cell carries an exercise. -/
theorem C9_role_flags_exclusive_witness :
    (mazeRoleFlags (4, 4) [(3, 3)] (4, 4)).exercise_present = false ∧
    (mazeRoleFlags (4, 4) [(3, 3)] (0, 0)).exercise_present = false :=
  ⟨C9_role_flags_exclusive 5 5 (4, 4) [(3, 3)] (by decide) (4, 4) (Or.inl (by decide)),
   C9_role_flags_exclusive 5 5 (4, 4) [(3, 3)] (by decide) (0, 0) (Or.inr (by decide))⟩

/-! ### The hint search (claims C3, C5, C6). -/

/-- Claim C3, the code evaluated at a failing input: on the 1×2 perfect maze
with exit `(0, 1)`, a first hint request from `(0, 0)` succeeds (and flags the
exit cell `visited_dfs`); repeating the identical request on the resulting
state empties the search stack without reaching the exit, after which the
reconstruction raises an uncaught `KeyError` (`PathToExit` has no entry for
the exit cell) instead of surfacing a "no path found" result. -/
theorem C3_search_exhaustion_keyError :
    (find_exit_dfs 1 2 (0, 1) (0, 0) 10 corridorCells (Stack.make Pos 2)).outcome
        = .success [((0, 0), (0, 1))] ∧
    (find_exit_dfs 1 2 (0, 1) (0, 0) 10
        (find_exit_dfs 1 2 (0, 1) (0, 0) 10 corridorCells (Stack.make Pos 2)).cells
        (find_exit_dfs 1 2 (0, 1) (0, 0) 10 corridorCells (Stack.make Pos 2)).stack).outcome
        = .keyError :=
  ⟨rfl, rfl⟩

/-- Core of the amended C6: folding the push loop writes `some cur` as the
parent of `n` whenever `n` is in the remaining list and not in the visited
set, and such a write is never undone within the loop. -/
theorem searchVisit_fold_write (vis : List Pos) (cur n : Pos) :
    ∀ (l : List Pos) (s : SearchState),
      ((n ∈ l ∧ ¬ n ∈ vis) ∨ s.pathToExit n = some cur) →
      (l.foldl
        (fun s k =>
          if k ∈ vis then s
          else { s with find_exit_stack := s.find_exit_stack.push k,
                        pathToExit := fun q => if q = k then some cur else s.pathToExit q })
        s).pathToExit n = some cur := by
  intro l
  induction l with
  | nil =>
    intro s h
    rcases h with ⟨hmem, -⟩ | h
    · cases hmem
    · exact h
  | cons k rest ih =>
    intro s h
    rw [List.foldl_cons]
    by_cases hk : k ∈ vis
    · rw [if_pos hk]
      refine ih s ?_
      rcases h with ⟨hmem, hnv⟩ | hP
      · rcases List.mem_cons.1 hmem with rfl | hmem'
        · exact absurd hk hnv
        · exact Or.inl ⟨hmem', hnv⟩
      · exact Or.inr hP
    · rw [if_neg hk]
      refine ih _ ?_
      rcases h with ⟨hmem, hnv⟩ | hP
      · rcases List.mem_cons.1 hmem with rfl | hmem'
        · exact Or.inr (by simp)
        · exact Or.inl ⟨hmem', hnv⟩
      · by_cases hnk : n = k
        · exact Or.inr (by simp [hnk])
        · exact Or.inr (by simpa [hnk] using hP)

/-- Claim C6 amended: `PathToExit[neighbour] = current` is written
unconditionally for every valid neighbour that is not in the visited set, so
the recorded parent after an expansion is always the current cell — the LAST
writer wins, and an entry recorded by an earlier discovery is overwritten if
the neighbour is rediscovered before being popped.  (On a maze whose open
edges form a tree a cell cannot be discovered twice, so first and last writer
coincide there.) -/
theorem C6_parent_last_writer (rows cols : Nat) (st : SearchState) (cur n : Pos)
    (hn : n ∈ valid_cells st.cells rows cols cur)
    (hnv : ¬ n ∈ cur :: st.visited) :
    (searchVisit rows cols st cur).pathToExit n = some cur := by
  unfold searchVisit
  exact searchVisit_fold_write (cur :: st.visited) cur n
    (valid_cells st.cells rows cols cur) _ (Or.inl ⟨hn, hnv⟩)

/-- Claim C6 counterexample: on the all-open 2×2 grid with exit `(0, 1)` and
player `(0, 0)`, the exit's parent entry is `(0, 0)` right after its first
discovery (two loop iterations in), but the rediscovery from `(1, 1)`
overwrites it to `(1, 1)` before the exit is popped — the first writer does
NOT win, in an otherwise successful search. -/
theorem C6_parent_overwritten :
    (findExitLoop 2 2 (0, 1) 2 searchStart2).1.pathToExit (0, 1) = some (0, 0) ∧
    (findExitLoop 2 2 (0, 1) 10 searchStart2).1.pathToExit (0, 1) = some (1, 1) ∧
    (findExitLoop 2 2 (0, 1) 10 searchStart2).2 = .foundExit :=
  ⟨rfl, rfl, rfl⟩

/-- Witness for the amended C6: in the intermediate state of that same run,
expanding `(1, 1)` overwrites the parent of `(0, 1)` from `(0, 0)` to
`(1, 1)`. -/
theorem C6_parent_last_writer_witness :
    searchMid2.pathToExit (0, 1) = some (0, 0) ∧
    (searchVisit 2 2 searchMid2 (1, 1)).pathToExit (0, 1) = some (1, 1) :=
  ⟨rfl, C6_parent_last_writer 2 2 searchMid2 (1, 1) (0, 1) (by decide) (by decide)⟩

/-- Pushing on a non-full stack with a valid pointer. -/
theorem push_of_not_full {α : Type} (s : Stack α) (x : α)
    (h : s.stackpointer ≠ (s.items.length : Int) - 1) :
    s.push x = { items := s.items.set (s.stackpointer + 1).toNat (some x),
                 stackpointer := s.stackpointer + 1 } := by
  unfold Stack.push
  rw [if_pos h]

/-- Pushing on a valid non-full stack and popping immediately returns the
pushed item and restores the pointer. -/
theorem push_pop_self {α : Type} (s : Stack α) (x : α)
    (h1 : -1 ≤ s.stackpointer) (h2 : s.stackpointer < (s.items.length : Int) - 1) :
    (s.push x).pop =
      (some x, { s.push x with stackpointer := s.stackpointer }) := by
  rw [push_of_not_full s x (by omega)]
  unfold Stack.pop
  rw [if_pos (by simp; omega)]
  have hlt : (s.stackpointer + 1).toNat < s.items.length := by omega
  simp only [pyIndex]
  rw [if_pos (by omega)]
  rw [List.getElem?_set_self (by simpa using hlt)]
  simp

/-- Claim C5: a hint request with the player's cell equal to the exit cell —
on any cell state, with the persistent search stack in any valid non-full
state — breaks out of the loop on its first iteration without expanding any
cell (the visited set stays empty), returns the empty path, and sets no
`visited_dfs` flag: the cell map comes back unchanged. -/
theorem C5_hint_at_exit (rows cols : Nat) (exitCell : Pos) (fuel : Nat)
    (cells0 : CellMap) (stack0 : Stack Pos)
    (hfuel : 1 ≤ fuel)
    (hsp1 : -1 ≤ stack0.stackpointer)
    (hsp2 : stack0.stackpointer < (stack0.items.length : Int) - 1) :
    (find_exit_dfs rows cols exitCell exitCell fuel cells0 stack0).outcome = .success [] ∧
    (find_exit_dfs rows cols exitCell exitCell fuel cells0 stack0).cells = cells0 ∧
    (findExitLoop rows cols exitCell fuel
      { cells := cells0, find_exit_stack := stack0.push exitCell,
        visited := [], pathToExit := fun _ => none }).1.visited = [] ∧
    (findExitLoop rows cols exitCell fuel
      { cells := cells0, find_exit_stack := stack0.push exitCell,
        visited := [], pathToExit := fun _ => none }).2 = .foundExit := by
  obtain ⟨f, rfl⟩ := Nat.exists_eq_add_of_le hfuel
  rw [Nat.add_comm 1 f]
  have hpush := push_of_not_full stack0 exitCell (by omega)
  have hloop : findExitLoop rows cols exitCell (f + 1)
      { cells := cells0, find_exit_stack := stack0.push exitCell,
        visited := [], pathToExit := fun _ => none } =
      ({ cells := cells0,
         find_exit_stack := { stack0.push exitCell with stackpointer := stack0.stackpointer },
         visited := [], pathToExit := fun _ => none }, .foundExit) := by
    unfold findExitLoop
    rw [if_neg ?hne]
    case hne =>
      simp only [Stack.is_empty, hpush, decide_eq_true_iff]
      omega
    rw [show ({ cells := cells0, find_exit_stack := stack0.push exitCell,
                visited := [], pathToExit := fun _ => none } : SearchState).find_exit_stack.pop
        = (some exitCell, { stack0.push exitCell with stackpointer := stack0.stackpointer })
      from push_pop_self stack0 exitCell hsp1 hsp2]
    simp
  have hrec : reconstructPath (fun _ => none) exitCell (f + 1) exitCell = .ok [] := by
    unfold reconstructPath
    rw [if_pos rfl]
  have h1 : (findExitLoop rows cols exitCell (f + 1)
      { cells := cells0, find_exit_stack := stack0.push exitCell,
        visited := [], pathToExit := fun _ => none }).1 =
      { cells := cells0,
        find_exit_stack := { stack0.push exitCell with stackpointer := stack0.stackpointer },
        visited := [], pathToExit := fun _ => none } := by rw [hloop]
  have h2 : (findExitLoop rows cols exitCell (f + 1)
      { cells := cells0, find_exit_stack := stack0.push exitCell,
        visited := [], pathToExit := fun _ => none }).2 = .foundExit := by rw [hloop]
  have hfinal : find_exit_dfs rows cols exitCell exitCell (f + 1) cells0 stack0 =
      { cells := cells0,
        stack := { stack0.push exitCell with stackpointer := stack0.stackpointer },
        outcome := .success [] } := by
    simp only [find_exit_dfs, h1, h2, hrec]
    rfl
  exact ⟨by rw [hfinal], by rw [hfinal], by rw [hloop], by rw [hloop]⟩

/-- Witness for C5 on the 1×2 maze: requesting a hint from the exit cell
itself yields the empty path and an unchanged cell map. -/
theorem C5_hint_at_exit_witness :
    ((find_exit_dfs 1 2 (0, 1) (0, 1) 5 corridorCells (Stack.make Pos 2)).outcome
        = .success []) ∧
    ((find_exit_dfs 1 2 (0, 1) (0, 1) 5 corridorCells (Stack.make Pos 2)).cells
        = corridorCells) :=
  ⟨(C5_hint_at_exit 1 2 (0, 1) 5 corridorCells (Stack.make Pos 2)
      (by decide) (by decide) (by decide)).1,
   (C5_hint_at_exit 1 2 (0, 1) 5 corridorCells (Stack.make Pos 2)
      (by decide) (by decide) (by decide)).2.1⟩

/-! ### Hint-path correctness (claim C4). -/

/-- Membership in the adjacency list, characterised. -/
theorem mem_check_adjacent {rows cols : Nat} {p q : Pos}
    (hq : q ∈ check_adjacent_cells rows cols p) :
    (1 ≤ p.2 ∧ q = (p.1, p.2 - 1)) ∨ (p.2 + 1 < cols ∧ q = (p.1, p.2 + 1)) ∨
    (1 ≤ p.1 ∧ q = (p.1 - 1, p.2)) ∨ (p.1 + 1 < rows ∧ q = (p.1 + 1, p.2)) := by
  simp only [check_adjacent_cells, List.mem_append, List.mem_ite_nil_right,
    List.mem_singleton] at hq
  tauto

/-- Adjacency-list members of an in-grid cell are in-grid, grid-adjacent
neighbours. -/
theorem check_adjacent_props {rows cols : Nat} {p q : Pos}
    (hp : InGrid rows cols p) (hq : q ∈ check_adjacent_cells rows cols p) :
    InGrid rows cols q ∧ GridAdjacent p q := by
  obtain ⟨h1, h2⟩ := hp
  rcases mem_check_adjacent hq with ⟨h, rfl⟩ | ⟨h, rfl⟩ | ⟨h, rfl⟩ | ⟨h, rfl⟩
  · exact ⟨⟨h1, by show p.2 - 1 < cols; omega⟩,
      Or.inl ⟨rfl, Or.inr (by show p.2 = p.2 - 1 + 1; omega)⟩⟩
  · exact ⟨⟨h1, h⟩, Or.inl ⟨rfl, Or.inl rfl⟩⟩
  · exact ⟨⟨by show p.1 - 1 < rows; omega, h2⟩,
      Or.inr ⟨rfl, Or.inr (by show p.1 = p.1 - 1 + 1; omega)⟩⟩
  · exact ⟨⟨h, h2⟩, Or.inr ⟨rfl, Or.inl rfl⟩⟩

/-- Every valid cell of one expansion step from an in-grid cell is an
open-adjacent neighbour of that cell, and is not hint-flagged. -/
theorem mem_valid_cells {m : CellMap} {rows cols : Nat} {cur n : Pos}
    (hcur : InGrid rows cols cur)
    (hn : n ∈ valid_cells m rows cols cur) :
    openAdj rows cols m cur n ∧ (m n).visited_dfs = false := by
  unfold valid_cells at hn
  rcases List.mem_flatMap.1 hn with ⟨c, hc, hcand⟩
  obtain ⟨hcg, hadj⟩ := check_adjacent_props hcur hc
  have hadj' : (cur.1 = c.1 ∧ (c.2 = cur.2 + 1 ∨ cur.2 = c.2 + 1)) ∨
      (cur.2 = c.2 ∧ (c.1 = cur.1 + 1 ∨ cur.1 = c.1 + 1)) := hadj
  unfold validCandidates at hcand
  simp only [List.mem_append, List.mem_ite_nil_right, List.mem_singleton] at hcand
  rcases hcand with ((⟨⟨hw1, hw2, hcoord, hdfs⟩, rfl⟩ | ⟨⟨hw1, hw2, hcoord, hdfs⟩, rfl⟩) |
    ⟨⟨hw1, hw2, hcoord, hdfs⟩, rfl⟩) | ⟨⟨hw1, hw2, hcoord, hdfs⟩, rfl⟩
  · -- right neighbour: cur.2 = n.2 - 1
    have hcc : n = rightOf cur := by
      rcases n with ⟨a, b⟩
      rcases cur with ⟨x, y⟩
      simp only [rightOf, Prod.mk.injEq]
      simp only at hcoord hadj'
      omega
    subst hcc
    exact ⟨⟨hcur, hcg, Or.inl ⟨rfl, hw1, hw2⟩⟩, hdfs⟩
  · -- left neighbour: cur.2 = n.2 + 1
    have hcc : cur = rightOf n := by
      rcases n with ⟨a, b⟩
      rcases cur with ⟨x, y⟩
      simp only [rightOf, Prod.mk.injEq]
      simp only at hcoord hadj'
      omega
    exact ⟨⟨hcur, hcg, Or.inr (Or.inl ⟨hcc, hw2, hcc ▸ hw1⟩)⟩, hdfs⟩
  · -- neighbour above: cur.1 = n.1 + 1
    have hcc : cur = belowOf n := by
      rcases n with ⟨a, b⟩
      rcases cur with ⟨x, y⟩
      simp only [belowOf, Prod.mk.injEq]
      simp only at hcoord hadj'
      omega
    exact ⟨⟨hcur, hcg, Or.inr (Or.inr (Or.inr ⟨hcc, hw2, hcc ▸ hw1⟩))⟩, hdfs⟩
  · -- neighbour below: cur.1 = n.1 - 1
    have hcc : n = belowOf cur := by
      rcases n with ⟨a, b⟩
      rcases cur with ⟨x, y⟩
      simp only [belowOf, Prod.mk.injEq]
      simp only at hcoord hadj'
      omega
    subst hcc
    exact ⟨⟨hcur, hcg, Or.inr (Or.inr (Or.inl ⟨rfl, hw1, hw2⟩))⟩, hdfs⟩

/-- Open adjacency is symmetric. -/
theorem openAdj_symm {rows cols : Nat} {m : CellMap} {p q : Pos}
    (h : openAdj rows cols m p q) : openAdj rows cols m q p :=
  (openGraph rows cols m).symm h

/-- The push fold of one expansion step preserves the search invariant, given
that every pushed cell is an open-adjacent neighbour of the expanded cell. -/
theorem searchFold_inv (rows cols : Nat) (cells0 : CellMap) (cur : Pos)
    (vis : List Pos) :
    ∀ (l : List Pos) (s : SearchState),
      (∀ n ∈ l, openAdj rows cols cells0 cur n) →
      SearchInv rows cols cells0 s →
      SearchInv rows cols cells0
        (l.foldl
          (fun s k =>
            if k ∈ vis then s
            else { s with find_exit_stack := s.find_exit_stack.push k,
                          pathToExit := fun q => if q = k then some cur else s.pathToExit q })
          s) := by
  intro l
  induction l with
  | nil =>
    intro s _ h
    exact h
  | cons k rest ih =>
    intro s hl hs
    rw [List.foldl_cons]
    by_cases hk : k ∈ vis
    · rw [if_pos hk]
      exact ih s (fun n hn => hl n (by simp [hn])) hs
    · rw [if_neg hk]
      refine ih _ (fun n hn => hl n (by simp [hn])) ?_
      obtain ⟨h1, h2, h3⟩ := hs
      have hkadj := hl k (by simp)
      refine ⟨h1, ?_, ?_⟩
      · intro x y hxy
        simp only at hxy
        by_cases hxk : x = k
        · subst hxk
          rw [if_pos rfl] at hxy
          cases hxy
          exact hkadj
        · rw [if_neg hxk] at hxy
          exact h2 x y hxy
      · intro p hp
        simp only [Stack.push] at hp
        split at hp
        · rcases List.mem_or_eq_of_mem_set hp with hp' | hp'
          · exact h3 p hp'
          · cases hp'
            exact hkadj.2.1
        · exact h3 p hp

/-- One expansion step from an in-grid cell preserves the search invariant. -/
theorem searchVisit_inv {rows cols : Nat} {cells0 : CellMap} {st : SearchState}
    {cur : Pos} (hst : SearchInv rows cols cells0 st)
    (hcur : InGrid rows cols cur) :
    SearchInv rows cols cells0 (searchVisit rows cols st cur) := by
  have hvalid : ∀ n ∈ valid_cells st.cells rows cols cur,
      openAdj rows cols cells0 cur n := by
    intro n hn
    have h := (mem_valid_cells hcur hn).1
    rwa [hst.1] at h
  unfold searchVisit
  refine searchFold_inv rows cols cells0 cur (cur :: st.visited) _ _ hvalid ?_
  exact ⟨hst.1, hst.2.1, hst.2.2⟩

/-- Retracting the stack pointer preserves the search invariant. -/
theorem pop_state_inv {rows cols : Nat} {cells0 : CellMap} {st : SearchState}
    (h : SearchInv rows cols cells0 st) :
    SearchInv rows cols cells0 { st with find_exit_stack := (st.find_exit_stack.pop).2 } := by
  obtain ⟨h1, h2, h3⟩ := h
  refine ⟨h1, h2, ?_⟩
  intro p hp
  apply h3
  simp only [Stack.pop] at hp
  split at hp <;> simpa using hp

/-- The whole search loop preserves the search invariant. -/
theorem findExitLoop_inv (rows cols : Nat) (cells0 : CellMap) (exitCell : Pos) :
    ∀ (fuel : Nat) (st : SearchState), SearchInv rows cols cells0 st →
      SearchInv rows cols cells0 (findExitLoop rows cols exitCell fuel st).1 := by
  intro fuel
  induction fuel with
  | zero =>
    intro st h
    exact h
  | succ f ih =>
    intro st h
    rw [findExitLoop]
    split
    · exact h
    · rename_i hne
      cases hpop : (st.find_exit_stack.pop).1 with
      | none =>
        simp only [hpop]
        exact pop_state_inv h
      | some cur =>
        simp only [hpop]
        have hcur : InGrid rows cols cur := by
          have hmem : some cur ∈ st.find_exit_stack.items := by
            revert hpop
            unfold Stack.pop
            split
            · intro hpop
              rcases hval : pyIndex st.find_exit_stack.items st.find_exit_stack.stackpointer with
                - | v
              · rw [hval] at hpop
                cases hpop
              · rw [hval] at hpop
                simp only [Option.getD_some] at hpop
                subst hpop
                unfold pyIndex at hval
                split at hval
                · exact List.getElem?_mem hval
                · split at hval
                  · exact List.getElem?_mem hval
                  · cases hval
            · intro hpop
              cases hpop
          exact h.2.2 cur hmem
        split
        · exact pop_state_inv h
        · exact ih _ (searchVisit_inv (pop_state_inv h) hcur)

/-- What a successful reconstruction returns: every recorded pair is a parent
link whose value is not the player, the value list (exit first) chains
through the parent map, an empty result means the walk started at the player,
and a nonempty result starts at the walk's start cell and ends at a cell
whose parent is the player. -/
theorem reconstructPath_ok_spec (P : Pos → Option Pos) (player : Pos) :
    ∀ (fuel : Nat) (cell : Pos) (fp : List (Pos × Pos)),
      reconstructPath P player fuel cell = .ok fp →
      (∀ pr ∈ fp, pr.2 ≠ player ∧ P pr.2 = some pr.1) ∧
      List.Chain' (fun a b => P a = some b) (fp.map Prod.snd) ∧
      (fp = [] → cell = player) ∧
      (fp ≠ [] → (fp.map Prod.snd).head? = some cell ∧
        (∃ q, (fp.map Prod.snd).getLast? = some q ∧ P q = some player)) := by
  intro fuel
  induction fuel with
  | zero =>
    intro cell fp h
    cases h
  | succ f ih =>
    intro cell fp h
    rw [reconstructPath] at h
    by_cases hcp : cell = player
    · rw [if_pos hcp] at h
      cases h
      exact ⟨by simp, by simp, fun _ => hcp, fun hne => absurd rfl hne⟩
    · rw [if_neg hcp] at h
      cases hPc : P cell with
      | none =>
        rw [hPc] at h
        cases h
      | some parent =>
        rw [hPc] at h
        simp only [] at h
        cases hrec : reconstructPath P player f parent with
        | ok fp' =>
          rw [hrec] at h
          simp only [] at h
          cases h
          obtain ⟨ha, hb, hc, hd⟩ := ih parent fp' hrec
          refine ⟨?_, ?_, ?_, ?_⟩
          · intro pr hpr
            rcases List.mem_cons.1 hpr with rfl | hpr'
            · exact ⟨hcp, hPc⟩
            · exact ha pr hpr'
          · rw [List.map_cons, List.chain'_cons']
            refine ⟨?_, hb⟩
            intro y hy
            cases hfp' : fp' with
            | nil =>
              rw [hfp'] at hy
              simp at hy
            | cons pr0 rest0 =>
              obtain ⟨hh, -⟩ := hd (by rw [hfp']; simp)
              rw [hh] at hy
              cases hy
              exact hPc
          · intro hnil
            cases hnil
          · intro _
            refine ⟨by simp, ?_⟩
            cases hfp' : fp' with
            | nil =>
              subst hfp'
              exact ⟨cell, by simp, by rw [hc rfl] at hPc; exact hPc⟩
            | cons pr0 rest0 =>
              obtain ⟨-, q, hq1, hq2⟩ := hd (by rw [hfp']; simp)
              refine ⟨q, ?_, hq2⟩
              subst hfp'
              rw [List.map_cons, List.map_cons, List.getLast?_cons_cons]
              rw [List.map_cons] at hq1
              exact hq1
        | keyError =>
          rw [hrec] at h
          cases h
        | noFuel =>
          rw [hrec] at h
          cases h

/-- Claim C4: whenever `find_exit_dfs` succeeds — for any wall state, so in
particular for every player cell of a correctly generated maze — the hint
path it encodes excludes the player's cell, each step of the walk
`player :: path` joins in-grid grid-adjacent cells whose shared wall is open
on both sides, the path's last element is the exit cell whenever the player
is not already there, and the path is empty when the player is the exit. -/
theorem C4_hint_path_correct (rows cols : Nat) (exitCell player : Pos)
    (fuel : Nat) (cells0 : CellMap) (stack0 : Stack Pos) (fp : List (Pos × Pos))
    (hstack : ∀ p : Pos, some p ∈ stack0.items → InGrid rows cols p)
    (hplayer : InGrid rows cols player)
    (hsucc : (find_exit_dfs rows cols exitCell player fuel cells0 stack0).outcome
      = .success fp) :
    (¬ player ∈ hintPath fp) ∧
    List.Chain' (openAdj rows cols cells0) (player :: hintPath fp) ∧
    (player ≠ exitCell → (hintPath fp).getLast? = some exitCell) ∧
    (player = exitCell → hintPath fp = []) := by
  have hinv0 : SearchInv rows cols cells0
      { cells := cells0, find_exit_stack := stack0.push player,
        visited := [], pathToExit := fun _ => none } := by
    refine ⟨rfl, ?_, ?_⟩
    · intro x y hxy
      cases hxy
    · intro p hp
      simp only [Stack.push] at hp
      split at hp
      · rcases List.mem_or_eq_of_mem_set hp with hp' | hp'
        · exact hstack p hp'
        · cases hp'
          exact hplayer
      · exact hstack p hp
  have hinv1 := findExitLoop_inv rows cols cells0 exitCell fuel _ hinv0
  have hrec : reconstructPath
      (findExitLoop rows cols exitCell fuel
        { cells := cells0, find_exit_stack := stack0.push player,
          visited := [], pathToExit := fun _ => none }).1.pathToExit
      player fuel exitCell = .ok fp := by
    revert hsucc
    simp only [find_exit_dfs]
    cases (findExitLoop rows cols exitCell fuel
        { cells := cells0, find_exit_stack := stack0.push player,
          visited := [], pathToExit := fun _ => none }).2 with
    | foundExit =>
      cases hr : reconstructPath
          (findExitLoop rows cols exitCell fuel
            { cells := cells0, find_exit_stack := stack0.push player,
              visited := [], pathToExit := fun _ => none }).1.pathToExit
          player fuel exitCell with
      | ok fp' =>
        intro hsucc
        cases hsucc
        rfl
      | keyError => intro hsucc; cases hsucc
      | noFuel => intro hsucc; cases hsucc
    | emptied =>
      cases hr : reconstructPath
          (findExitLoop rows cols exitCell fuel
            { cells := cells0, find_exit_stack := stack0.push player,
              visited := [], pathToExit := fun _ => none }).1.pathToExit
          player fuel exitCell with
      | ok fp' =>
        intro hsucc
        cases hsucc
        rfl
      | keyError => intro hsucc; cases hsucc
      | noFuel => intro hsucc; cases hsucc
    | popNone => intro hsucc; cases hsucc
    | outOfFuel => intro hsucc; cases hsucc
  obtain ⟨ha, hb, hc, hd⟩ := reconstructPath_ok_spec _ player fuel exitCell fp hrec
  have hP := hinv1.2.1
  have hmemPath : ∀ x, x ∈ hintPath fp → ∃ pr ∈ fp, pr.2 = x := by
    intro x hx
    unfold hintPath at hx
    rw [List.mem_reverse] at hx
    rcases List.mem_map.1 hx with ⟨pr, hpr, hpr2⟩
    exact ⟨pr, hpr, hpr2⟩
  refine ⟨?_, ?_, ?_, ?_⟩
  · intro hmem
    rcases hmemPath player hmem with ⟨pr, hpr, hpr2⟩
    exact (ha pr hpr).1 hpr2
  · rw [List.chain'_cons']
    constructor
    · intro y hy
      unfold hintPath at hy
      rw [List.head?_reverse] at hy
      cases hfp : fp with
      | nil =>
        rw [hfp] at hy
        simp at hy
      | cons pr0 rest0 =>
        obtain ⟨-, q, hq1, hq2⟩ := hd (by rw [hfp]; simp)
        rw [hq1] at hy
        cases hy
        exact hP _ player hq2
    · unfold hintPath
      rw [List.chain'_reverse]
      refine List.Chain'.imp ?_ hb
      intro a b hab
      exact hP a b hab
  · intro hne
    have hfpne : fp ≠ [] := by
      intro hfp
      exact hne (hc hfp).symm
    obtain ⟨hh, -⟩ := hd hfpne
    unfold hintPath
    rw [List.getLast?_reverse]
    exact hh
  · intro heq
    cases hfp : fp with
    | nil =>
      rfl
    | cons pr0 rest0 =>
      exfalso
      obtain ⟨hh, -⟩ := hd (by rw [hfp]; simp)
      have hmem : exitCell ∈ fp.map Prod.snd := by
        rcases hhead : (fp.map Prod.snd).head? with - | z
        · rw [hhead] at hh
          cases hh
        · rw [hhead] at hh
          cases hh
          exact List.mem_of_mem_head? hhead
      rcases List.mem_map.1 hmem with ⟨pr, hpr, hpr2⟩
      exact (ha pr hpr).1 (by rw [hpr2, ← heq])

/-- Witness for C4 on the 1×2 maze: the successful hint from `(0, 0)` to exit
`(0, 1)` yields the one-step path `[(0, 1)]` with all claimed properties. -/
theorem C4_hint_path_correct_witness :
    (¬ ((0, 0) : Pos) ∈ hintPath [((0, 0), (0, 1))]) ∧
    List.Chain' (openAdj 1 2 corridorCells) ((0, 0) :: hintPath [((0, 0), (0, 1))]) ∧
    (((0, 0) : Pos) ≠ (0, 1) → (hintPath [((0, 0), (0, 1))]).getLast? = some (0, 1)) ∧
    (((0, 0) : Pos) = (0, 1) → hintPath [((0, 0), (0, 1))] = []) :=
  C4_hint_path_correct 1 2 (0, 1) (0, 0) 10 corridorCells (Stack.make Pos 2)
    [((0, 0), (0, 1))]
    (by intro p hp; simp [Stack.make, List.mem_replicate] at hp)
    (by constructor <;> decide)
    rfl

/-! ### Carving lemmas for `remove_walls` (claims C1, C2, C8). -/

/-- The four relative positions of a grid-adjacent pair. -/
theorem gridAdjacent_cases {cur nxt : Pos} (h : GridAdjacent cur nxt) :
    nxt = rightOf cur ∨ cur = rightOf nxt ∨ nxt = belowOf cur ∨ cur = belowOf nxt := by
  rcases cur with ⟨r, c⟩
  rcases nxt with ⟨r', c'⟩
  rcases h with ⟨h1, h2 | h2⟩ | ⟨h1, h2 | h2⟩
  · exact Or.inl (by simp only [rightOf, Prod.mk.injEq]; simp only at h1 h2; omega)
  · exact Or.inr (Or.inl (by simp only [rightOf, Prod.mk.injEq]; simp only at h1 h2; omega))
  · exact Or.inr (Or.inr (Or.inl
      (by simp only [belowOf, Prod.mk.injEq]; simp only at h1 h2; omega)))
  · exact Or.inr (Or.inr (Or.inr
      (by simp only [belowOf, Prod.mk.injEq]; simp only at h1 h2; omega)))

/-- A cell is never its own right neighbour, etc. -/
theorem rightOf_ne (p : Pos) : rightOf p ≠ p := by
  intro h
  have := congrArg Prod.snd h
  simp [rightOf] at this

/-- A cell is never its own lower neighbour. -/
theorem belowOf_ne (p : Pos) : belowOf p ≠ p := by
  intro h
  have := congrArg Prod.fst h
  simp [belowOf] at this

/-- Grid-adjacent cells are distinct. -/
theorem gridAdjacent_ne {cur nxt : Pos} (h : GridAdjacent cur nxt) : cur ≠ nxt := by
  intro he
  subst he
  rcases gridAdjacent_cases h with h' | h' | h' | h'
  · exact rightOf_ne cur h'.symm
  · exact rightOf_ne cur h'.symm
  · exact belowOf_ne cur h'.symm
  · exact belowOf_ne cur h'.symm

/-- Carving to the right: only the third branch of `remove_walls` fires. -/
theorem remove_walls_rightOf (m : CellMap) (cur : Pos) :
    remove_walls m cur (rightOf cur) =
      updCell (updCell m (rightOf cur) (fun c => c.set_walls .left false)) cur
        (fun c => c.set_walls .right false) := by
  have h1 : ¬ ((cur.1 : Int) - ((rightOf cur).1 : Int) = 1) := by
    simp only [rightOf]; omega
  have h2 : ¬ ((cur.1 : Int) - ((rightOf cur).1 : Int) = -1) := by
    simp only [rightOf]; omega
  have h3 : (cur.2 : Int) - ((rightOf cur).2 : Int) = -1 := by
    simp only [rightOf]; omega
  have h4 : ¬ ((cur.2 : Int) - ((rightOf cur).2 : Int) = 1) := by
    simp only [rightOf]; omega
  simp only [remove_walls, if_neg h1, if_neg h2, if_pos h3, if_neg h4]

/-- Carving downward: only the second branch of `remove_walls` fires. -/
theorem remove_walls_belowOf (m : CellMap) (cur : Pos) :
    remove_walls m cur (belowOf cur) =
      updCell (updCell m (belowOf cur) (fun c => c.set_walls .top false)) cur
        (fun c => c.set_walls .bottom false) := by
  have h1 : ¬ ((cur.1 : Int) - ((belowOf cur).1 : Int) = 1) := by
    simp only [belowOf]; omega
  have h2 : (cur.1 : Int) - ((belowOf cur).1 : Int) = -1 := by
    simp only [belowOf]; omega
  have h3 : ¬ ((cur.2 : Int) - ((belowOf cur).2 : Int) = -1) := by
    simp only [belowOf]; omega
  have h4 : ¬ ((cur.2 : Int) - ((belowOf cur).2 : Int) = 1) := by
    simp only [belowOf]; omega
  simp only [remove_walls, if_neg h1, if_pos h2, if_neg h3, if_neg h4]

/-- Carving leftward: only the fourth branch fires, clearing the same pair as
the rightward carve of the mirrored call. -/
theorem remove_walls_of_rightOf (m : CellMap) (nxt : Pos) :
    remove_walls m (rightOf nxt) nxt =
      updCell (updCell m nxt (fun c => c.set_walls .right false)) (rightOf nxt)
        (fun c => c.set_walls .left false) := by
  have h1 : ¬ (((rightOf nxt).1 : Int) - (nxt.1 : Int) = 1) := by
    simp only [rightOf]; omega
  have h2 : ¬ (((rightOf nxt).1 : Int) - (nxt.1 : Int) = -1) := by
    simp only [rightOf]; omega
  have h3 : ¬ (((rightOf nxt).2 : Int) - (nxt.2 : Int) = -1) := by
    simp only [rightOf]; omega
  have h4 : ((rightOf nxt).2 : Int) - (nxt.2 : Int) = 1 := by
    simp only [rightOf]; omega
  simp only [remove_walls, if_neg h1, if_neg h2, if_neg h3, if_pos h4]

/-- Carving upward: only the first branch fires, clearing the same pair as
the downward carve of the mirrored call. -/
theorem remove_walls_of_belowOf (m : CellMap) (nxt : Pos) :
    remove_walls m (belowOf nxt) nxt =
      updCell (updCell m nxt (fun c => c.set_walls .bottom false)) (belowOf nxt)
        (fun c => c.set_walls .top false) := by
  have h1 : ((belowOf nxt).1 : Int) - (nxt.1 : Int) = 1 := by
    simp only [belowOf]; omega
  have h2 : ¬ (((belowOf nxt).1 : Int) - (nxt.1 : Int) = -1) := by
    simp only [belowOf]; omega
  have h3 : ¬ (((belowOf nxt).2 : Int) - (nxt.2 : Int) = -1) := by
    simp only [belowOf]; omega
  have h4 : ¬ (((belowOf nxt).2 : Int) - (nxt.2 : Int) = 1) := by
    simp only [belowOf]; omega
  simp only [remove_walls, if_pos h1, if_neg h2, if_neg h3, if_neg h4]

/-- Updates at distinct positions commute. -/
theorem updCell_comm (m : CellMap) (p q : Pos) (f g : Cell → Cell) (h : p ≠ q) :
    updCell (updCell m p f) q g = updCell (updCell m q g) p f := by
  funext x
  unfold updCell
  by_cases hxp : x = p
  · subst hxp
    simp [h]
  · by_cases hxq : x = q
    · subst hxq
      simp [hxp]
    · simp [hxp, hxq]

/-- `remove_walls` clears the same wall pair in either call order. -/
theorem remove_walls_swap {cur nxt : Pos} (m : CellMap) (h : GridAdjacent cur nxt) :
    remove_walls m nxt cur = remove_walls m cur nxt := by
  rcases gridAdjacent_cases h with h' | h' | h' | h'
  · subst h'
    rw [remove_walls_of_rightOf, remove_walls_rightOf]
    exact updCell_comm m cur (rightOf cur) _ _ (Ne.symm (rightOf_ne cur))
  · rw [h', remove_walls_rightOf, remove_walls_of_rightOf]
    exact updCell_comm m (rightOf nxt) nxt _ _ (rightOf_ne nxt)
  · subst h'
    rw [remove_walls_of_belowOf, remove_walls_belowOf]
    exact updCell_comm m cur (belowOf cur) _ _ (Ne.symm (belowOf_ne cur))
  · rw [h', remove_walls_belowOf, remove_walls_of_belowOf]
    exact updCell_comm m (belowOf nxt) nxt _ _ (belowOf_ne nxt)

/-- Pointwise description of a rightward carve. -/
theorem remove_walls_rightOf_fields (m : CellMap) (cur p : Pos) :
    remove_walls m cur (rightOf cur) p =
      if p = cur then { m cur with right := false }
      else if p = rightOf cur then { m (rightOf cur) with left := false }
      else m p := by
  rw [remove_walls_rightOf]
  unfold updCell
  by_cases hp : p = cur
  · subst hp
    rw [if_pos rfl, if_pos rfl, if_neg (fun h => rightOf_ne p h.symm)]
    rfl
  · rw [if_neg hp, if_neg hp]
    by_cases hq : p = rightOf cur
    · subst hq
      rw [if_pos rfl, if_pos rfl]
      rfl
    · rw [if_neg hq, if_neg hq]

/-- Pointwise description of a downward carve. -/
theorem remove_walls_belowOf_fields (m : CellMap) (cur p : Pos) :
    remove_walls m cur (belowOf cur) p =
      if p = cur then { m cur with bottom := false }
      else if p = belowOf cur then { m (belowOf cur) with top := false }
      else m p := by
  rw [remove_walls_belowOf]
  unfold updCell
  by_cases hp : p = cur
  · subst hp
    rw [if_pos rfl, if_pos rfl, if_neg (fun h => belowOf_ne p h.symm)]
    rfl
  · rw [if_neg hp, if_neg hp]
    by_cases hq : p = belowOf cur
    · subst hq
      rw [if_pos rfl, if_pos rfl]
      rfl
    · rw [if_neg hq, if_neg hq]

/-- `rightOf` is injective. -/
theorem rightOf_inj {p q : Pos} (h : rightOf p = rightOf q) : p = q := by
  rcases p with ⟨a, b⟩
  rcases q with ⟨c, d⟩
  simp only [rightOf, Prod.mk.injEq] at h ⊢
  omega

/-- `belowOf` is injective. -/
theorem belowOf_inj {p q : Pos} (h : belowOf p = belowOf q) : p = q := by
  rcases p with ⟨a, b⟩
  rcases q with ⟨c, d⟩
  simp only [belowOf, Prod.mk.injEq] at h ⊢
  omega

/-- A rightward carve does not touch top walls. -/
theorem carveR_top (m : CellMap) (c p : Pos) :
    (remove_walls m c (rightOf c) p).top = (m p).top := by
  rw [remove_walls_rightOf_fields]
  split
  · rename_i h; subst h; rfl
  · split
    · rename_i h; subst h; rfl
    · rfl

/-- A rightward carve does not touch bottom walls. -/
theorem carveR_bottom (m : CellMap) (c p : Pos) :
    (remove_walls m c (rightOf c) p).bottom = (m p).bottom := by
  rw [remove_walls_rightOf_fields]
  split
  · rename_i h; subst h; rfl
  · split
    · rename_i h; subst h; rfl
    · rfl

/-- A rightward carve clears exactly the carver's right wall. -/
theorem carveR_right (m : CellMap) (c p : Pos) :
    (remove_walls m c (rightOf c) p).right = if p = c then false else (m p).right := by
  rw [remove_walls_rightOf_fields]
  by_cases h1 : p = c
  · subst h1
    rw [if_pos rfl, if_pos rfl]
  · rw [if_neg h1, if_neg h1]
    split
    · rename_i h; subst h; rfl
    · rfl

/-- A rightward carve clears exactly the right neighbour's left wall. -/
theorem carveR_left (m : CellMap) (c p : Pos) :
    (remove_walls m c (rightOf c) p).left = if p = rightOf c then false else (m p).left := by
  rw [remove_walls_rightOf_fields]
  by_cases h1 : p = c
  · subst h1
    rw [if_pos rfl, if_neg (Ne.symm (rightOf_ne p))]
  · rw [if_neg h1]
    split
    · rfl
    · rfl

/-- A downward carve does not touch left walls. -/
theorem carveB_left (m : CellMap) (c p : Pos) :
    (remove_walls m c (belowOf c) p).left = (m p).left := by
  rw [remove_walls_belowOf_fields]
  split
  · rename_i h; subst h; rfl
  · split
    · rename_i h; subst h; rfl
    · rfl

/-- A downward carve does not touch right walls. -/
theorem carveB_right (m : CellMap) (c p : Pos) :
    (remove_walls m c (belowOf c) p).right = (m p).right := by
  rw [remove_walls_belowOf_fields]
  split
  · rename_i h; subst h; rfl
  · split
    · rename_i h; subst h; rfl
    · rfl

/-- A downward carve clears exactly the carver's bottom wall. -/
theorem carveB_bottom (m : CellMap) (c p : Pos) :
    (remove_walls m c (belowOf c) p).bottom = if p = c then false else (m p).bottom := by
  rw [remove_walls_belowOf_fields]
  by_cases h1 : p = c
  · subst h1
    rw [if_pos rfl, if_pos rfl]
  · rw [if_neg h1, if_neg h1]
    split
    · rename_i h; subst h; rfl
    · rfl

/-- A downward carve clears exactly the lower neighbour's top wall. -/
theorem carveB_top (m : CellMap) (c p : Pos) :
    (remove_walls m c (belowOf c) p).top = if p = belowOf c then false else (m p).top := by
  rw [remove_walls_belowOf_fields]
  by_cases h1 : p = c
  · subst h1
    rw [if_pos rfl, if_neg (Ne.symm (belowOf_ne p))]
  · rw [if_neg h1]
    split
    · rfl
    · rfl

/-- Walls already absent stay absent under any grid-adjacent carve. -/
theorem remove_walls_subset (m : CellMap) (cur nxt : Pos) (hadj : GridAdjacent cur nxt) :
    wallsSubset m (remove_walls m cur nxt) := by
  have hR : ∀ (m : CellMap) (c : Pos), wallsSubset m (remove_walls m c (rightOf c)) := by
    intro m c p
    refine ⟨?_, ?_, ?_, ?_⟩
    · rw [carveR_top]; exact id
    · rw [carveR_right]; intro h; split <;> [rfl; exact h]
    · rw [carveR_bottom]; exact id
    · rw [carveR_left]; intro h; split <;> [rfl; exact h]
  have hB : ∀ (m : CellMap) (c : Pos), wallsSubset m (remove_walls m c (belowOf c)) := by
    intro m c p
    refine ⟨?_, ?_, ?_, ?_⟩
    · rw [carveB_top]; intro h; split <;> [rfl; exact h]
    · rw [carveB_right]; exact id
    · rw [carveB_bottom]; intro h; split <;> [rfl; exact h]
    · rw [carveB_left]; exact id
  rcases gridAdjacent_cases hadj with h | h | h | h
  · subst h
    exact hR m cur
  · rw [← remove_walls_swap m hadj, h]
    exact hR m nxt
  · subst h
    exact hB m cur
  · rw [← remove_walls_swap m hadj, h]
    exact hB m nxt

/-- Wall symmetry is preserved by any grid-adjacent carve. -/
theorem wallSym_remove_walls {rows cols : Nat} {m : CellMap} {cur nxt : Pos}
    (hadj : GridAdjacent cur nxt) (hs : WallSym rows cols m) :
    WallSym rows cols (remove_walls m cur nxt) := by
  have hR : ∀ (m : CellMap) (c : Pos), WallSym rows cols m →
      WallSym rows cols (remove_walls m c (rightOf c)) := by
    intro m c hs p hp
    obtain ⟨hs1, hs2⟩ := hs p hp
    constructor
    · intro hc
      rw [carveR_right, carveR_left]
      by_cases h1 : p = c
      · rw [if_pos h1, if_pos (by rw [h1])]
      · rw [if_neg h1, if_neg (fun h => h1 (rightOf_inj h))]
        exact hs1 hc
    · intro hc
      rw [carveR_bottom, carveR_top]
      exact hs2 hc
  have hB : ∀ (m : CellMap) (c : Pos), WallSym rows cols m →
      WallSym rows cols (remove_walls m c (belowOf c)) := by
    intro m c hs p hp
    obtain ⟨hs1, hs2⟩ := hs p hp
    constructor
    · intro hc
      rw [carveB_right, carveB_left]
      exact hs1 hc
    · intro hc
      rw [carveB_bottom, carveB_top]
      by_cases h1 : p = c
      · rw [if_pos h1, if_pos (by rw [h1])]
      · rw [if_neg h1, if_neg (fun h => h1 (belowOf_inj h))]
        exact hs2 hc
  rcases gridAdjacent_cases hadj with h | h | h | h
  · subst h
    exact hR m cur hs
  · rw [← remove_walls_swap m hadj, h]
    exact hR m nxt hs
  · subst h
    exact hB m cur hs
  · rw [← remove_walls_swap m hadj, h]
    exact hB m nxt hs

/-- Marking a cell visited leaves every wall flag unchanged. -/
theorem markVisited_wallsEq (cur : Pos) (st : GenState) :
    WallsEq st.cells (markVisited cur st).cells := by
  intro p
  show WallsEqAt (st.cells p) (updCell st.cells cur (fun c => { c with visited := true }) p)
  unfold updCell
  split
  · exact ⟨rfl, rfl, rfl, rfl⟩
  · exact ⟨rfl, rfl, rfl, rfl⟩

/-- `openRight` only reads wall flags. -/
theorem openRight_of_wallsEq {m m' : CellMap} (h : WallsEq m m') (p : Pos) :
    openRight m p ↔ openRight m' p := by
  unfold openRight
  rw [(h p).2.1, (h (rightOf p)).2.2.2]

/-- `openBelow` only reads wall flags. -/
theorem openBelow_of_wallsEq {m m' : CellMap} (h : WallsEq m m') (p : Pos) :
    openBelow m p ↔ openBelow m' p := by
  unfold openBelow
  rw [(h p).2.2.1, (h (belowOf p)).1]

/-- `openAdj` only reads wall flags. -/
theorem openAdj_of_wallsEq {m m' : CellMap} (h : WallsEq m m') (rows cols : Nat)
    (p q : Pos) : openAdj rows cols m p q ↔ openAdj rows cols m' p q := by
  unfold openAdj
  rw [openRight_of_wallsEq h p, openRight_of_wallsEq h q,
    openBelow_of_wallsEq h p, openBelow_of_wallsEq h q]

/-- Equal walls give the same open-edge graph. -/
theorem openGraph_of_wallsEq {m m' : CellMap} (h : WallsEq m m') (rows cols : Nat) :
    openGraph rows cols m = openGraph rows cols m' := by
  ext p q
  exact openAdj_of_wallsEq h rows cols p q

/-- Equal walls give the same open-edge count. -/
theorem openEdgeCount_of_wallsEq {m m' : CellMap} (h : WallsEq m m') (rows cols : Nat) :
    openEdgeCount rows cols m = openEdgeCount rows cols m' := by
  unfold openEdgeCount
  refine Finset.sum_congr rfl ?_
  intro p _
  rw [if_congr (and_congr_right fun _ => openRight_of_wallsEq h p) rfl rfl,
    if_congr (and_congr_right fun _ => openBelow_of_wallsEq h p) rfl rfl]

/-- Equal walls transfer wall symmetry. -/
theorem wallSym_of_wallsEq {m m' : CellMap} (h : WallsEq m m') {rows cols : Nat}
    (hs : WallSym rows cols m) : WallSym rows cols m' := by
  intro p hp
  obtain ⟨h1, h2⟩ := hs p hp
  constructor
  · intro hc
    rw [← (h p).2.1, ← (h (rightOf p)).2.2.2]
    exact h1 hc
  · intro hc
    rw [← (h p).2.2.1, ← (h (belowOf p)).1]
    exact h2 hc

/-- Equal walls transfer reachability. -/
theorem reachOpen_of_wallsEq {m m' : CellMap} (h : WallsEq m m') (rows cols : Nat)
    {a b : Pos} (hr : ReachOpen rows cols m a b) : ReachOpen rows cols m' a b :=
  Relation.ReflTransGen.mono (fun x y hxy => (openAdj_of_wallsEq h rows cols x y).1 hxy) hr

/-- Removing walls can only create open adjacencies. -/
theorem openAdj_mono {m m' : CellMap} (h : wallsSubset m m') {rows cols : Nat}
    {p q : Pos} (ha : openAdj rows cols m p q) : openAdj rows cols m' p q := by
  obtain ⟨h1, h2, hc⟩ := ha
  refine ⟨h1, h2, ?_⟩
  rcases hc with ⟨he, hr1, hr2⟩ | ⟨he, hr1, hr2⟩ | ⟨he, hr1, hr2⟩ | ⟨he, hr1, hr2⟩
  · exact Or.inl ⟨he, (h p).2.1 hr1, (h (rightOf p)).2.2.2 hr2⟩
  · exact Or.inr (Or.inl ⟨he, (h q).2.1 hr1, (h (rightOf q)).2.2.2 hr2⟩)
  · exact Or.inr (Or.inr (Or.inl ⟨he, (h p).2.2.1 hr1, (h (belowOf p)).1 hr2⟩))
  · exact Or.inr (Or.inr (Or.inr ⟨he, (h q).2.2.1 hr1, (h (belowOf q)).1 hr2⟩))

/-- Removing walls preserves reachability. -/
theorem reachOpen_mono {m m' : CellMap} (h : wallsSubset m m') (rows cols : Nat)
    {a b : Pos} (hr : ReachOpen rows cols m a b) : ReachOpen rows cols m' a b :=
  Relation.ReflTransGen.mono (fun x y hxy => openAdj_mono h hxy) hr

/-- A cell is grid-adjacent to its right neighbour. -/
theorem gridAdjacent_rightOf (c : Pos) : GridAdjacent c (rightOf c) :=
  Or.inl ⟨rfl, Or.inl rfl⟩

/-- A cell is grid-adjacent to its lower neighbour. -/
theorem gridAdjacent_belowOf (c : Pos) : GridAdjacent c (belowOf c) :=
  Or.inr ⟨rfl, Or.inl rfl⟩

/-- A sum over a finite set grows by one when exactly one term grows by one. -/
theorem sum_succ_at (s : Finset Pos) (f g : Pos → Nat) (t : Pos) (ht : t ∈ s)
    (hsame : ∀ p ∈ s, p ≠ t → f p = g p) (hdelta : g t = f t + 1) :
    Finset.sum s g = Finset.sum s f + 1 := by
  have he : Finset.sum (s.erase t) (fun p => g p) = Finset.sum (s.erase t) (fun p => f p) :=
    Finset.sum_congr rfl fun p hp =>
      (hsame p (Finset.mem_of_mem_erase hp) (Finset.ne_of_mem_erase hp)).symm
  rw [← Finset.add_sum_erase s g ht, ← Finset.add_sum_erase s f ht, hdelta, he]
  omega

/-- A rightward carve whose wall pair was still closed adds exactly one open
edge. -/
theorem openEdgeCount_carveR (rows cols : Nat) (m : CellMap) (c : Pos)
    (hc : InGrid rows cols c) (hr : InGrid rows cols (rightOf c))
    (hclosed : ¬ openRight m c) :
    openEdgeCount rows cols (remove_walls m c (rightOf c)) =
      openEdgeCount rows cols m + 1 := by
  unfold openEdgeCount
  refine sum_succ_at _ _ _ c ?_ ?_ ?_
  · rw [Finset.mem_product]
    exact ⟨Finset.mem_range.2 hc.1, Finset.mem_range.2 hc.2⟩
  · intro p _ hne
    have h1 : openRight m p ↔ openRight (remove_walls m c (rightOf c)) p := by
      unfold openRight
      rw [carveR_right, carveR_left, if_neg hne, if_neg (fun h => hne (rightOf_inj h))]
    have h2 : openBelow m p ↔ openBelow (remove_walls m c (rightOf c)) p := by
      unfold openBelow
      rw [carveR_bottom, carveR_top]
    rw [if_congr (and_congr_right fun _ => h1) rfl rfl,
      if_congr (and_congr_right fun _ => h2) rfl rfl]
  · have hnew : openRight (remove_walls m c (rightOf c)) c := by
      unfold openRight
      rw [carveR_right, if_pos rfl, carveR_left, if_pos rfl]
      exact ⟨rfl, rfl⟩
    have hcols : c.2 + 1 < cols := hr.2
    have h2 : openBelow m c ↔ openBelow (remove_walls m c (rightOf c)) c := by
      unfold openBelow
      rw [carveR_bottom, carveR_top]
    rw [if_neg (fun hcon : c.2 + 1 < cols ∧ openRight m c => hclosed hcon.2),
      if_pos (⟨hcols, hnew⟩ : c.2 + 1 < cols ∧ openRight (remove_walls m c (rightOf c)) c),
      if_congr (and_congr_right fun _ => h2) rfl rfl]
    omega

/-- A downward carve whose wall pair was still closed adds exactly one open
edge. -/
theorem openEdgeCount_carveB (rows cols : Nat) (m : CellMap) (c : Pos)
    (hc : InGrid rows cols c) (hb : InGrid rows cols (belowOf c))
    (hclosed : ¬ openBelow m c) :
    openEdgeCount rows cols (remove_walls m c (belowOf c)) =
      openEdgeCount rows cols m + 1 := by
  unfold openEdgeCount
  refine sum_succ_at _ _ _ c ?_ ?_ ?_
  · rw [Finset.mem_product]
    exact ⟨Finset.mem_range.2 hc.1, Finset.mem_range.2 hc.2⟩
  · intro p _ hne
    have h1 : openRight m p ↔ openRight (remove_walls m c (belowOf c)) p := by
      unfold openRight
      rw [carveB_right, carveB_left]
    have h2 : openBelow m p ↔ openBelow (remove_walls m c (belowOf c)) p := by
      unfold openBelow
      rw [carveB_bottom, carveB_top, if_neg hne, if_neg (fun h => hne (belowOf_inj h))]
    rw [if_congr (and_congr_right fun _ => h1) rfl rfl,
      if_congr (and_congr_right fun _ => h2) rfl rfl]
  · have hnew : openBelow (remove_walls m c (belowOf c)) c := by
      unfold openBelow
      rw [carveB_bottom, if_pos rfl, carveB_top, if_pos rfl]
      exact ⟨rfl, rfl⟩
    have hrows : c.1 + 1 < rows := hb.1
    have h1 : openRight m c ↔ openRight (remove_walls m c (belowOf c)) c := by
      unfold openRight
      rw [carveB_right, carveB_left]
    rw [if_neg (fun hcon : c.1 + 1 < rows ∧ openBelow m c => hclosed hcon.2),
      if_pos (⟨hrows, hnew⟩ : c.1 + 1 < rows ∧ openBelow (remove_walls m c (belowOf c)) c),
      if_congr (and_congr_right fun _ => h1) rfl rfl]

/-- Carving between a current cell and a fully walled fresh neighbour adds
exactly one open edge. -/
theorem openEdgeCount_carve (rows cols : Nat) (m : CellMap) {cur nxt : Pos}
    (hadj : GridAdjacent cur nxt) (hcur : InGrid rows cols cur)
    (hnxt : InGrid rows cols nxt) (hfresh : wallsIntact (m nxt)) :
    openEdgeCount rows cols (remove_walls m cur nxt) =
      openEdgeCount rows cols m + 1 := by
  rcases gridAdjacent_cases hadj with h | h | h | h
  · subst h
    refine openEdgeCount_carveR rows cols m cur hcur hnxt ?_
    intro hcon
    obtain ⟨h1, h2⟩ := hcon
    rw [hfresh.2.2.2] at h2
    exact Bool.noConfusion h2
  · rw [← remove_walls_swap m hadj, h]
    refine openEdgeCount_carveR rows cols m nxt hnxt (h ▸ hcur) ?_
    intro hcon
    obtain ⟨h1, h2⟩ := hcon
    rw [hfresh.2.1] at h1
    exact Bool.noConfusion h1
  · subst h
    refine openEdgeCount_carveB rows cols m cur hcur hnxt ?_
    intro hcon
    obtain ⟨h1, h2⟩ := hcon
    rw [hfresh.1] at h2
    exact Bool.noConfusion h2
  · rw [← remove_walls_swap m hadj, h]
    refine openEdgeCount_carveB rows cols m nxt hnxt (h ▸ hcur) ?_
    intro hcon
    obtain ⟨h1, h2⟩ := hcon
    rw [hfresh.2.2.1] at h1
    exact Bool.noConfusion h1

/-- Right openness after a rightward carve: the carved pair becomes open and
nothing else changes. -/
theorem openRight_carveR (m : CellMap) (c x : Pos) :
    openRight (remove_walls m c (rightOf c)) x ↔ (x = c ∨ openRight m x) := by
  unfold openRight
  rw [carveR_right, carveR_left]
  by_cases h : x = c
  · subst h
    rw [if_pos rfl, if_pos rfl]
    simp
  · rw [if_neg h, if_neg (fun he => h (rightOf_inj he))]
    simp [h]

/-- A rightward carve does not change any bottom/top wall. -/
theorem openBelow_carveR (m : CellMap) (c x : Pos) :
    openBelow (remove_walls m c (rightOf c)) x ↔ openBelow m x := by
  unfold openBelow
  rw [carveR_bottom, carveR_top]

/-- Below openness after a downward carve: the carved pair becomes open and
nothing else changes. -/
theorem openBelow_carveB (m : CellMap) (c x : Pos) :
    openBelow (remove_walls m c (belowOf c)) x ↔ (x = c ∨ openBelow m x) := by
  unfold openBelow
  rw [carveB_bottom, carveB_top]
  by_cases h : x = c
  · subst h
    rw [if_pos rfl, if_pos rfl]
    simp
  · rw [if_neg h, if_neg (fun he => h (belowOf_inj he))]
    simp [h]

/-- A downward carve does not change any right/left wall. -/
theorem openRight_carveB (m : CellMap) (c x : Pos) :
    openRight (remove_walls m c (belowOf c)) x ↔ openRight m x := by
  unfold openRight
  rw [carveB_right, carveB_left]

/-- Open adjacency after a rightward carve: the old edges plus the carved
pair, in both orientations. -/
theorem openAdj_carveR_char (rows cols : Nat) (m : CellMap) (c : Pos)
    (hc : InGrid rows cols c) (hr : InGrid rows cols (rightOf c)) (p q : Pos) :
    openAdj rows cols (remove_walls m c (rightOf c)) p q ↔
      (openAdj rows cols m p q ∨
        ((p = c ∧ q = rightOf c) ∨ (p = rightOf c ∧ q = c))) := by
  constructor
  · rintro ⟨hp, hq, hcond⟩
    rcases hcond with ⟨he, hro⟩ | ⟨he, hro⟩ | ⟨he, hro⟩ | ⟨he, hro⟩
    · rcases (openRight_carveR m c p).1 hro with h | h
      · exact Or.inr (Or.inl ⟨h, by rw [h] at he; exact he⟩)
      · exact Or.inl ⟨hp, hq, Or.inl ⟨he, h⟩⟩
    · rcases (openRight_carveR m c q).1 hro with h | h
      · exact Or.inr (Or.inr ⟨by rw [h] at he; exact he, h⟩)
      · exact Or.inl ⟨hp, hq, Or.inr (Or.inl ⟨he, h⟩)⟩
    · exact Or.inl ⟨hp, hq,
        Or.inr (Or.inr (Or.inl ⟨he, (openBelow_carveR m c p).1 hro⟩))⟩
    · exact Or.inl ⟨hp, hq,
        Or.inr (Or.inr (Or.inr ⟨he, (openBelow_carveR m c q).1 hro⟩))⟩
  · rintro (⟨hp, hq, hcond⟩ | ⟨hpc, hqr⟩ | ⟨hpr, hqc⟩)
    · refine ⟨hp, hq, ?_⟩
      rcases hcond with ⟨he, hro⟩ | ⟨he, hro⟩ | ⟨he, hro⟩ | ⟨he, hro⟩
      · exact Or.inl ⟨he, (openRight_carveR m c p).2 (Or.inr hro)⟩
      · exact Or.inr (Or.inl ⟨he, (openRight_carveR m c q).2 (Or.inr hro)⟩)
      · exact Or.inr (Or.inr (Or.inl ⟨he, (openBelow_carveR m c p).2 hro⟩))
      · exact Or.inr (Or.inr (Or.inr ⟨he, (openBelow_carveR m c q).2 hro⟩))
    · rw [hpc, hqr]
      exact ⟨hc, hr, Or.inl ⟨rfl, (openRight_carveR m c c).2 (Or.inl rfl)⟩⟩
    · rw [hpr, hqc]
      exact ⟨hr, hc, Or.inr (Or.inl ⟨rfl, (openRight_carveR m c c).2 (Or.inl rfl)⟩)⟩

/-- Open adjacency after a downward carve: the old edges plus the carved
pair, in both orientations. -/
theorem openAdj_carveB_char (rows cols : Nat) (m : CellMap) (c : Pos)
    (hc : InGrid rows cols c) (hb : InGrid rows cols (belowOf c)) (p q : Pos) :
    openAdj rows cols (remove_walls m c (belowOf c)) p q ↔
      (openAdj rows cols m p q ∨
        ((p = c ∧ q = belowOf c) ∨ (p = belowOf c ∧ q = c))) := by
  constructor
  · rintro ⟨hp, hq, hcond⟩
    rcases hcond with ⟨he, hro⟩ | ⟨he, hro⟩ | ⟨he, hro⟩ | ⟨he, hro⟩
    · exact Or.inl ⟨hp, hq, Or.inl ⟨he, (openRight_carveB m c p).1 hro⟩⟩
    · exact Or.inl ⟨hp, hq, Or.inr (Or.inl ⟨he, (openRight_carveB m c q).1 hro⟩)⟩
    · rcases (openBelow_carveB m c p).1 hro with h | h
      · exact Or.inr (Or.inl ⟨h, by rw [h] at he; exact he⟩)
      · exact Or.inl ⟨hp, hq, Or.inr (Or.inr (Or.inl ⟨he, h⟩))⟩
    · rcases (openBelow_carveB m c q).1 hro with h | h
      · exact Or.inr (Or.inr ⟨by rw [h] at he; exact he, h⟩)
      · exact Or.inl ⟨hp, hq, Or.inr (Or.inr (Or.inr ⟨he, h⟩))⟩
  · rintro (⟨hp, hq, hcond⟩ | ⟨hpc, hqr⟩ | ⟨hpr, hqc⟩)
    · refine ⟨hp, hq, ?_⟩
      rcases hcond with ⟨he, hro⟩ | ⟨he, hro⟩ | ⟨he, hro⟩ | ⟨he, hro⟩
      · exact Or.inl ⟨he, (openRight_carveB m c p).2 hro⟩
      · exact Or.inr (Or.inl ⟨he, (openRight_carveB m c q).2 hro⟩)
      · exact Or.inr (Or.inr (Or.inl ⟨he, (openBelow_carveB m c p).2 (Or.inr hro)⟩))
      · exact Or.inr (Or.inr (Or.inr ⟨he, (openBelow_carveB m c q).2 (Or.inr hro)⟩))
    · rw [hpc, hqr]
      exact ⟨hc, hb,
        Or.inr (Or.inr (Or.inl ⟨rfl, (openBelow_carveB m c c).2 (Or.inl rfl)⟩))⟩
    · rw [hpr, hqc]
      exact ⟨hb, hc,
        Or.inr (Or.inr (Or.inr ⟨rfl, (openBelow_carveB m c c).2 (Or.inl rfl)⟩))⟩

/-- Open adjacency after carving between grid-adjacent cells. -/
theorem openAdj_carve_char (rows cols : Nat) (m : CellMap) {cur nxt : Pos}
    (hadj : GridAdjacent cur nxt) (hcur : InGrid rows cols cur)
    (hnxt : InGrid rows cols nxt) (p q : Pos) :
    openAdj rows cols (remove_walls m cur nxt) p q ↔
      (openAdj rows cols m p q ∨ ((p = cur ∧ q = nxt) ∨ (p = nxt ∧ q = cur))) := by
  rcases gridAdjacent_cases hadj with h | h | h | h
  · subst h
    exact openAdj_carveR_char rows cols m cur hcur hnxt p q
  · subst h
    rw [← remove_walls_swap m hadj,
      openAdj_carveR_char rows cols m nxt hnxt hcur p q]
    tauto
  · subst h
    exact openAdj_carveB_char rows cols m cur hcur hnxt p q
  · subst h
    rw [← remove_walls_swap m hadj,
      openAdj_carveB_char rows cols m nxt hnxt hcur p q]
    tauto

/-- A cell with all four walls intact has no open edge. -/
theorem fresh_not_openAdj (rows cols : Nat) (m : CellMap) {nxt : Pos}
    (hfresh : wallsIntact (m nxt)) (x : Pos) : ¬ openAdj rows cols m nxt x := by
  rintro ⟨-, -, ⟨-, h1, -⟩ | ⟨he, -, h2⟩ | ⟨-, h1, -⟩ | ⟨he, -, h2⟩⟩
  · rw [hfresh.2.1] at h1
    exact Bool.noConfusion h1
  · rw [← he, hfresh.2.2.2] at h2
    exact Bool.noConfusion h2
  · rw [hfresh.2.2.1] at h1
    exact Bool.noConfusion h1
  · rw [← he, hfresh.1] at h2
    exact Bool.noConfusion h2

/-- Every non-trivial walk contains an edge into its final vertex. -/
theorem exists_last_edge {G : SimpleGraph Pos} {u v : Pos} (w : G.Walk u v) :
    u ≠ v → ∃ z, G.Adj z v ∧ s(z, v) ∈ w.edges := by
  induction w with
  | nil => intro h; exact absurd rfl h
  | @cons a b c h p ih =>
    intro _
    by_cases hbc : b = c
    · subst hbc
      exact ⟨a, h, by simp⟩
    · obtain ⟨z, hz, hmem⟩ := ih hbc
      exact ⟨z, hz, by simp [hmem]⟩

/-- No cycle can pass through a vertex whose only incident edge is the one
just added. -/
theorem no_cycle_at_isolated {G GN : SimpleGraph Pos} {a b : Pos} (hab : a ≠ b)
    (hAdj : ∀ x y, GN.Adj x y → (G.Adj x y ∨ ((x = a ∧ y = b) ∨ (x = b ∧ y = a))))
    (hiso : ∀ x, ¬ G.Adj b x) (d : GN.Walk b b) (hdc : d.IsCycle) : False := by
  cases d with
  | nil => exact hdc.ne_nil rfl
  | @cons _ y _ h1 p =>
    have hy : y = a := by
      rcases hAdj b y h1 with h | ⟨hba, -⟩ | ⟨-, hya⟩
      · exact absurd h (hiso y)
      · exact absurd hba hab.symm
      · exact hya
    have hyb : y ≠ b := by
      rw [hy]
      exact hab
    obtain ⟨z, hz, hmem⟩ := exists_last_edge p hyb
    have hz' : z = a := by
      rcases hAdj z b hz with h | ⟨hza, -⟩ | ⟨-, hba⟩
      · exact absurd h.symm (hiso z)
      · exact hza
      · exact absurd hba.symm hab
    have hnodup := hdc.isCircuit.isTrail.edges_nodup
    rw [SimpleGraph.Walk.edges_cons] at hnodup
    have hzy : z = y := hz'.trans hy.symm
    rw [hzy, Sym2.eq_swap] at hmem
    exact (List.nodup_cons.1 hnodup).1 hmem

/-- Adding one edge to an isolated vertex of an acyclic graph keeps it
acyclic. -/
theorem isAcyclic_add_isolated {G GN : SimpleGraph Pos} {a b : Pos} (hab : a ≠ b)
    (hAdj : ∀ x y, GN.Adj x y ↔ (G.Adj x y ∨ ((x = a ∧ y = b) ∨ (x = b ∧ y = a))))
    (hiso : ∀ x, ¬ G.Adj b x) (hG : G.IsAcyclic) : GN.IsAcyclic := by
  intro v c hc
  by_cases hmem : s(a, b) ∈ c.edges
  · exact no_cycle_at_isolated hab (fun x y h => (hAdj x y).1 h) hiso
      (c.rotate (SimpleGraph.Walk.snd_mem_support_of_mem_edges c hmem))
      (hc.rotate _)
  · have hsub : ∀ e, e ∈ c.edges → e ∈ G.edgeSet := by
      intro e
      refine Sym2.ind (fun x y he => ?_) e
      rcases (hAdj x y).1 (c.adj_of_mem_edges he) with h | ⟨hxa, hyb⟩ | ⟨hxb, hya⟩
      · exact (SimpleGraph.mem_edgeSet _).2 h
      · subst hxa; subst hyb
        exact absurd he hmem
      · subst hxb; subst hya
        rw [Sym2.eq_swap] at he
        exact absurd he hmem
    exact hG (c.transfer G hsub) (hc.transfer hsub)

/-- Carving walls never changes a `visited` flag. -/
theorem remove_walls_visited (m : CellMap) {cur nxt : Pos}
    (hadj : GridAdjacent cur nxt) (p : Pos) :
    (remove_walls m cur nxt p).visited = (m p).visited := by
  have hR : ∀ (m : CellMap) (c : Pos),
      (remove_walls m c (rightOf c) p).visited = (m p).visited := by
    intro m c
    rw [remove_walls_rightOf_fields]
    by_cases h1 : p = c
    · rw [if_pos h1, h1]
    · rw [if_neg h1]
      by_cases h2 : p = rightOf c
      · rw [if_pos h2, h2]
      · rw [if_neg h2]
  have hB : ∀ (m : CellMap) (c : Pos),
      (remove_walls m c (belowOf c) p).visited = (m p).visited := by
    intro m c
    rw [remove_walls_belowOf_fields]
    by_cases h1 : p = c
    · rw [if_pos h1, h1]
    · rw [if_neg h1]
      by_cases h2 : p = belowOf c
      · rw [if_pos h2, h2]
      · rw [if_neg h2]
  rcases gridAdjacent_cases hadj with h | h | h | h
  · subst h
    exact hR m cur
  · rw [← remove_walls_swap m hadj, h]
    exact hR m nxt
  · subst h
    exact hB m cur
  · rw [← remove_walls_swap m hadj, h]
    exact hB m nxt

/-- Carving between two cells leaves every third cell untouched. -/
theorem remove_walls_other (m : CellMap) {cur nxt : Pos}
    (hadj : GridAdjacent cur nxt) {p : Pos} (h1 : p ≠ cur) (h2 : p ≠ nxt) :
    remove_walls m cur nxt p = m p := by
  rcases gridAdjacent_cases hadj with h | h | h | h
  · subst h
    rw [remove_walls_rightOf_fields, if_neg h1, if_neg h2]
  · rw [← remove_walls_swap m hadj, h, remove_walls_rightOf_fields,
      if_neg h2, if_neg (h ▸ h1)]
  · subst h
    rw [remove_walls_belowOf_fields, if_neg h1, if_neg h2]
  · rw [← remove_walls_swap m hadj, h, remove_walls_belowOf_fields,
      if_neg h2, if_neg (h ▸ h1)]

/-- A duplicate-free list of in-grid positions has at most `rows * cols`
elements. -/
theorem nodup_grid_length {rows cols : Nat} {l : List Pos} (hnd : l.Nodup)
    (hg : ∀ p ∈ l, InGrid rows cols p) : l.length ≤ rows * cols := by
  have h1 : l.toFinset ⊆ Finset.range rows ×ˢ Finset.range cols := by
    intro p hp
    rw [List.mem_toFinset] at hp
    rw [Finset.mem_product, Finset.mem_range, Finset.mem_range]
    exact hg p hp
  have h2 := Finset.card_le_card h1
  rw [List.toFinset_card_of_nodup hnd] at h2
  rwa [Finset.card_product, Finset.card_range, Finset.card_range] at h2

/-- A duplicate-free list contained in another duplicate-free list is no
longer than it. -/
theorem nodup_subset_length {l1 l2 : List Pos} (hnd1 : l1.Nodup)
    (hnd2 : l2.Nodup) (hsub : ∀ p ∈ l1, p ∈ l2) : l1.length ≤ l2.length := by
  have h1 : l1.toFinset ⊆ l2.toFinset := by
    intro p hp
    rw [List.mem_toFinset] at hp ⊢
    exact hsub p hp
  have h2 := Finset.card_le_card h1
  rwa [List.toFinset_card_of_nodup hnd1, List.toFinset_card_of_nodup hnd2] at h2

/-- Appending one fresh element keeps a list duplicate-free. -/
theorem nodup_append_one {l : List Pos} {a : Pos} (hnd : l.Nodup)
    (ha : ¬ a ∈ l) : (l ++ [a]).Nodup := by
  rw [List.nodup_append]
  refine ⟨hnd, List.nodup_singleton a, ?_⟩
  intro x hx hxa
  rw [List.mem_singleton] at hxa
  subst hxa
  exact ha hx

/-- Pushing never changes the number of slots. -/
theorem push_items_length {α : Type} (s : Stack α) (x : α) :
    (s.push x).items.length = s.items.length := by
  unfold Stack.push
  split
  · simp
  · rfl

/-- Peek right after an in-capacity push returns the pushed item. -/
theorem push_peek {α : Type} (s : Stack α) (x : α) (d : Nat)
    (hsp : s.stackpointer = (d : Int)) (hlen : d + 1 < s.items.length) :
    (s.push x).peek = some (some x) := by
  rw [push_of_not_full s x (by rw [hsp]; omega)]
  unfold Stack.peek pyIndex
  simp only [hsp]
  rw [if_pos (by omega)]
  have h1 : ((d : Int) + 1).toNat = d + 1 := by omega
  rw [h1]
  rw [List.getElem?_set_eq_of_lt _ hlen]

/-- Popping a non-empty stack only retreats the pointer. -/
theorem pop_snd {α : Type} (s : Stack α) (h : s.stackpointer ≠ -1) :
    (s.pop).2 = { s with stackpointer := s.stackpointer - 1 } := by
  unfold Stack.pop
  rw [if_pos h]

/-- The neighbour loop preserves the loop invariant, grows the visited list,
and leaves every listed neighbour visited. -/
theorem processList_spec (rows cols : Nat) (rec : GenState → GenState)
    (cur : Pos) (A : List Pos) (d : Nat) (hcurG : InGrid rows cols cur)
    (hrec : ∀ st n, GenPre rows cols st n (A ++ [cur]) (d + 1) →
      GenOut rows cols st (rec st) n (A ++ [cur]) (d + 1)) :
    ∀ (l : List Pos) (st : GenState),
      (∀ n ∈ l, GridAdjacent cur n ∧ InGrid rows cols n) →
      PLPre rows cols st cur A d →
      PLOut rows cols st (processList rec cur l st) cur A d l := by
  intro l
  induction l with
  | nil =>
    intro st _ hpre
    refine { inv := hpre.inv, grows := ⟨[], (List.append_nil _).symm⟩,
             sp := hpre.spl, intact := hpre.intact, ec := hpre.ec,
             closure := hpre.closure, procd := ?_ }
    intro m hm
    cases hm
  | cons n rest ihl =>
    intro st hadj hpre
    simp only [processList]
    by_cases hn : n ∈ st.visited_cells
    · rw [if_pos hn]
      have hfin := ihl st (fun m hm => hadj m (List.mem_cons_of_mem n hm)) hpre
      refine { inv := hfin.inv, grows := hfin.grows, sp := hfin.sp,
               intact := hfin.intact, ec := hfin.ec, closure := hfin.closure,
               procd := ?_ }
      intro m hm
      rcases List.mem_cons.1 hm with h | h
      · subst h
        obtain ⟨t, ht⟩ := hfin.grows
        rw [ht]
        exact List.mem_append_left _ hn
      · exact hfin.procd m h
    · rw [if_neg hn]
      obtain ⟨hadj_n, hgrid_n⟩ := hadj n (List.mem_cons_self n rest)
      have hlen : st.stack.items.length = rows * cols := hpre.inv.slen
      have hsubAcur : ∀ p ∈ A ++ [cur], p ∈ st.visited_cells := by
        intro p hp
        rcases List.mem_append.1 hp with h | h
        · exact hpre.hAsub p h
        · rw [List.mem_singleton] at h
          subst h
          exact hpre.curV
      have hgridn : ∀ p ∈ st.visited_cells ++ [n], InGrid rows cols p := by
        intro p hp
        rcases List.mem_append.1 hp with h | h
        · exact hpre.inv.vgrid p h
        · rw [List.mem_singleton] at h
          subst h
          exact hgrid_n
      have h1 : (A ++ [cur]).length ≤ st.visited_cells.length :=
        nodup_subset_length hpre.hAnd hpre.inv.nd hsubAcur
      have h2 : (st.visited_cells ++ [n]).length ≤ rows * cols :=
        nodup_grid_length (nodup_append_one hpre.inv.nd hn) hgridn
      have hdlen : d + 2 ≤ rows * cols := by
        have h3 := hpre.hd
        simp only [List.length_append, List.length_singleton] at h1 h2
        omega
      have hfresh : wallsIntact (st.cells n) := hpre.intact n hn
      have hcurne : cur ≠ n := gridAdjacent_ne hadj_n
      have hpre2 : GenPre rows cols
          { st with stack := st.stack.push n,
                    cells := remove_walls st.cells cur n } n (A ++ [cur])
          (d + 1) := by
        refine { inv := ?_, hpeek := ?_, hsp := ?_, hd := ?_,
                 hAsub := hsubAcur, hAnd := hpre.hAnd, hcurA := ?_,
                 hcurV := hn, hcurG := hgrid_n, hreach := ?_, hint := ?_,
                 hec := ?_, hclo := ?_ }
        · refine { slen := ?_, nd := hpre.inv.nd, vgrid := hpre.inv.vgrid,
                   flags := ?_, sym := ?_, acyc := ?_, reach := ?_ }
          · show (st.stack.push n).items.length = rows * cols
            rw [push_items_length]
            exact hpre.inv.slen
          · intro p
            show ((remove_walls st.cells cur n p).visited = true) ↔
              p ∈ st.visited_cells
            rw [remove_walls_visited st.cells hadj_n p]
            exact hpre.inv.flags p
          · exact wallSym_remove_walls hadj_n hpre.inv.sym
          · exact @isAcyclic_add_isolated (openGraph rows cols st.cells)
              (openGraph rows cols (remove_walls st.cells cur n)) cur n hcurne
              (fun x y => openAdj_carve_char rows cols st.cells hadj_n hcurG
                hgrid_n x y)
              (fun x => fresh_not_openAdj rows cols st.cells hfresh x)
              hpre.inv.acyc
          · intro p hp
            exact reachOpen_mono (remove_walls_subset st.cells cur n hadj_n)
              rows cols (hpre.inv.reach p hp)
        · show (st.stack.push n).peek = some (some n)
          exact push_peek st.stack n d hpre.spl (by rw [hlen]; omega)
        · show (st.stack.push n).stackpointer = ((d + 1 : Nat) : Int)
          rw [push_of_not_full st.stack n (by rw [hpre.spl, hlen]; omega)]
          show st.stack.stackpointer + 1 = ((d + 1 : Nat) : Int)
          rw [hpre.spl]
          omega
        · rw [List.length_append, List.length_singleton, hpre.hd]
        · intro hmem
          exact hn (hsubAcur n hmem)
        · show ReachOpen rows cols (remove_walls st.cells cur n) (0, 0) n
          have hcc : ReachOpen rows cols (remove_walls st.cells cur n)
              (0, 0) cur :=
            reachOpen_mono (remove_walls_subset st.cells cur n hadj_n) rows cols
              (hpre.inv.reach cur hpre.curV)
          refine Relation.ReflTransGen.tail hcc ?_
          exact (openAdj_carve_char rows cols st.cells hadj_n hcurG hgrid_n
            cur n).2 (Or.inr (Or.inl ⟨rfl, rfl⟩))
        · intro p hp hpn
          show wallsIntact (remove_walls st.cells cur n p)
          have hpc : p ≠ cur := by
            intro he
            subst he
            exact hp hpre.curV
          rw [remove_walls_other st.cells hadj_n hpc hpn]
          exact hpre.intact p hp
        · show openEdgeCount rows cols (remove_walls st.cells cur n) =
            st.visited_cells.length
          rw [openEdgeCount_carve rows cols st.cells hadj_n hcurG hgrid_n
            hfresh]
          exact hpre.ec
        · intro p hp hpA q hq
          have hpA' : ¬ p ∈ A := fun h => hpA (List.mem_append_left _ h)
          have hpc : p ≠ cur := fun h =>
            hpA (List.mem_append_right _ (by rw [h]; exact List.mem_singleton_self cur))
          exact hpre.closure p hp hpA' hpc q hq
      have hout := hrec _ n hpre2
      have ht1' : ∃ t1,
          (rec { st with stack := st.stack.push n,
                         cells := remove_walls st.cells cur n }).visited_cells =
            st.visited_cells ++ t1 := hout.grows
      obtain ⟨t1, ht1⟩ := ht1'
      have hpre3 : PLPre rows cols
          (rec { st with stack := st.stack.push n,
                         cells := remove_walls st.cells cur n }) cur A d := by
        refine { inv := hout.inv, spl := ?_, curV := ?_, hd := hpre.hd,
                 hAsub := ?_, hAnd := hpre.hAnd, intact := hout.intact,
                 ec := hout.ec, closure := ?_ }
        · have h := hout.sp
          omega
        · rw [ht1]
          exact List.mem_append_left _ hpre.curV
        · intro p hp
          rw [ht1]
          exact List.mem_append_left _ (hpre.hAsub p hp)
        · intro p hp hpA hpc q hq
          refine hout.closure p hp ?_ q hq
          intro hmem
          rcases List.mem_append.1 hmem with h | h
          · exact hpA h
          · rw [List.mem_singleton] at h
            exact hpc h
      have hfin := ihl _ (fun m hm => hadj m (List.mem_cons_of_mem n hm)) hpre3
      obtain ⟨t2, ht2⟩ := hfin.grows
      refine { inv := hfin.inv, grows := ⟨t1 ++ t2, ?_⟩, sp := hfin.sp,
               intact := hfin.intact, ec := hfin.ec, closure := hfin.closure,
               procd := ?_ }
      · rw [ht2, ht1, List.append_assoc]
      · intro m hm
        rcases List.mem_cons.1 hm with h | h
        · subst h
          rw [ht2]
          exact List.mem_append_left _ hout.curIn
        · exact hfin.procd m h

/-- Popping never changes the slots. -/
theorem pop_items {α : Type} (s : Stack α) : ((s.pop).2).items = s.items := by
  unfold Stack.pop
  split
  · rfl
  · rfl

/-- Popping a non-empty stack retreats the pointer by one. -/
theorem pop_snd_sp {α : Type} (s : Stack α) (h : s.stackpointer ≠ -1) :
    ((s.pop).2).stackpointer = s.stackpointer - 1 := by
  rw [pop_snd s h]

/-- One successful step of `maze_generation_dfs`, written out: mark the
peeked cell, bump the shuffle counter, run the neighbour loop, pop. -/
theorem gen_dfs_succ (shuffle : Nat → List Pos → List Pos) (rows cols f : Nat)
    (st : GenState) (cur : Pos) (hpeek : st.stack.peek = some (some cur)) :
    maze_generation_dfs shuffle rows cols (f + 1) st =
      { processList (maze_generation_dfs shuffle rows cols f) cur
        (shuffle st.ctr (check_adjacent_cells rows cols cur))
        { st with
          cells := updCell st.cells cur (fun c => { c with visited := true }),
          visited_cells := st.visited_cells ++ [cur],
          ctr := st.ctr + 1 } with
        stack := ((processList (maze_generation_dfs shuffle rows cols f) cur
        (shuffle st.ctr (check_adjacent_cells rows cols cur))
        { st with
          cells := updCell st.cells cur (fun c => { c with visited := true }),
          visited_cells := st.visited_cells ++ [cur],
          ctr := st.ctr + 1 }).stack.pop).2 } := by
  unfold maze_generation_dfs
  rw [hpeek]
  rfl

/-- A `maze_generation_dfs` call entered under its precondition with enough
fuel establishes its postcondition. -/
theorem gen_dfs_spec (shuffle : Nat → List Pos → List Pos)
    (hshuffle : ∀ n l, List.Perm (shuffle n l) l) (rows cols : Nat) :
    ∀ (fuel : Nat) (st : GenState) (cur : Pos) (A : List Pos) (d : Nat),
      GenPre rows cols st cur A d → rows * cols ≤ fuel + d →
      GenOut rows cols st (maze_generation_dfs shuffle rows cols fuel st)
        cur A d := by
  intro fuel
  induction fuel with
  | zero =>
    intro st cur A d hpre hfuel
    exfalso
    have hsub : ∀ p ∈ A ++ [cur], InGrid rows cols p := by
      intro p hp
      rcases List.mem_append.1 hp with h | h
      · exact hpre.inv.vgrid p (hpre.hAsub p h)
      · rw [List.mem_singleton] at h
        subst h
        exact hpre.hcurG
    have hnd : (A ++ [cur]).Nodup := nodup_append_one hpre.hAnd hpre.hcurA
    have h1 := nodup_grid_length hnd hsub
    have h2 := hpre.hd
    simp only [List.length_append, List.length_singleton] at h1
    omega
  | succ f ih =>
    intro st cur A d hpre hfuel
    rw [gen_dfs_succ shuffle rows cols f st cur hpre.hpeek]
    have hWE : WallsEq st.cells
        (updCell st.cells cur (fun c => { c with visited := true })) :=
      markVisited_wallsEq cur st
    have hplpre : PLPre rows cols
        { st with
          cells := updCell st.cells cur (fun c => { c with visited := true }),
          visited_cells := st.visited_cells ++ [cur],
          ctr := st.ctr + 1 } cur A d := by
      refine { inv := ?_, spl := hpre.hsp, curV := ?_, hd := hpre.hd,
               hAsub := ?_, hAnd := nodup_append_one hpre.hAnd hpre.hcurA,
               intact := ?_, ec := ?_, closure := ?_ }
      · refine { slen := hpre.inv.slen,
                 nd := nodup_append_one hpre.inv.nd hpre.hcurV,
                 vgrid := ?_, flags := ?_,
                 sym := wallSym_of_wallsEq hWE hpre.inv.sym,
                 acyc := ?_, reach := ?_ }
        · intro p hp
          rcases List.mem_append.1 hp with h | h
          · exact hpre.inv.vgrid p h
          · rw [List.mem_singleton] at h
            subst h
            exact hpre.hcurG
        · intro p
          by_cases hpc : p = cur
          · subst hpc
            show ((updCell st.cells p (fun c => { c with visited := true })
              p).visited = true) ↔ p ∈ st.visited_cells ++ [p]
            rw [updCell_self]
            simp
          · show ((updCell st.cells cur (fun c => { c with visited := true })
              p).visited = true) ↔ p ∈ st.visited_cells ++ [cur]
            rw [updCell_other st.cells cur p _ hpc, List.mem_append,
              List.mem_singleton, hpre.inv.flags p]
            tauto
        · show (openGraph rows cols (updCell st.cells cur
            (fun c => { c with visited := true }))).IsAcyclic
          rw [← openGraph_of_wallsEq hWE rows cols]
          exact hpre.inv.acyc
        · intro p hp
          rcases List.mem_append.1 hp with h | h
          · exact reachOpen_of_wallsEq hWE rows cols (hpre.inv.reach p h)
          · rw [List.mem_singleton] at h
            subst h
            exact reachOpen_of_wallsEq hWE rows cols hpre.hreach
      · exact List.mem_append_right _ (List.mem_singleton_self cur)
      · intro p hp
        exact List.mem_append_left _ (hpre.hAsub p hp)
      · intro p hp
        have hpv : ¬ p ∈ st.visited_cells :=
          fun h => hp (List.mem_append_left _ h)
        have hpc : p ≠ cur := fun h =>
          hp (List.mem_append_right _ (by rw [h]; exact List.mem_singleton_self cur))
        show wallsIntact (updCell st.cells cur
          (fun c => { c with visited := true }) p)
        rw [updCell_other st.cells cur p _ hpc]
        exact hpre.hint p hpv hpc
      · show openEdgeCount rows cols (updCell st.cells cur
          (fun c => { c with visited := true })) + 1 =
          (st.visited_cells ++ [cur]).length
        rw [← openEdgeCount_of_wallsEq hWE rows cols, hpre.hec,
          List.length_append, List.length_singleton]
      · intro p hp hpA hpc q hq
        have hpv : p ∈ st.visited_cells := by
          rcases List.mem_append.1 hp with h | h
          · exact h
          · rw [List.mem_singleton] at h
            exact absurd h hpc
        exact List.mem_append_left _ (hpre.hclo p hpv hpA q hq)
    have hrec2 : ∀ st2 n, GenPre rows cols st2 n (A ++ [cur]) (d + 1) →
        GenOut rows cols st2 (maze_generation_dfs shuffle rows cols f st2) n
          (A ++ [cur]) (d + 1) :=
      fun st2 n hp => ih st2 n (A ++ [cur]) (d + 1) hp (by omega)
    have hadjprop : ∀ n ∈ shuffle st.ctr (check_adjacent_cells rows cols cur),
        GridAdjacent cur n ∧ InGrid rows cols n := by
      intro n hn
      have hmem : n ∈ check_adjacent_cells rows cols cur :=
        (hshuffle st.ctr (check_adjacent_cells rows cols cur)).mem_iff.1 hn
      obtain ⟨hg, ha⟩ := check_adjacent_props hpre.hcurG hmem
      exact ⟨ha, hg⟩
    have hpl := processList_spec rows cols
      (maze_generation_dfs shuffle rows cols f) cur A d hpre.hcurG hrec2
      (shuffle st.ctr (check_adjacent_cells rows cols cur))
      { st with
        cells := updCell st.cells cur (fun c => { c with visited := true }),
        visited_cells := st.visited_cells ++ [cur],
        ctr := st.ctr + 1 } hadjprop hplpre
    obtain ⟨t, ht⟩ := hpl.grows
    have hg : (processList (maze_generation_dfs shuffle rows cols f) cur
        (shuffle st.ctr (check_adjacent_cells rows cols cur))
        { st with
          cells := updCell st.cells cur (fun c => { c with visited := true }),
          visited_cells := st.visited_cells ++ [cur],
          ctr := st.ctr + 1 }).visited_cells =
        st.visited_cells ++ ([cur] ++ t) := by
      rw [ht, List.append_assoc]
    have hcur3 : cur ∈ (processList (maze_generation_dfs shuffle rows cols f) cur
        (shuffle st.ctr (check_adjacent_cells rows cols cur))
        { st with
          cells := updCell st.cells cur (fun c => { c with visited := true }),
          visited_cells := st.visited_cells ++ [cur],
          ctr := st.ctr + 1 }).visited_cells := by
      rw [hg]
      exact List.mem_append_right _ (List.mem_append_left _
        (List.mem_singleton_self cur))
    refine { inv := ?_, grows := ⟨[cur] ++ t, hg⟩, curIn := hcur3,
             sp := ?_, intact := hpl.intact, ec := hpl.ec, closure := ?_ }
    · refine { slen := ?_, nd := hpl.inv.nd, vgrid := hpl.inv.vgrid,
               flags := hpl.inv.flags, sym := hpl.inv.sym,
               acyc := hpl.inv.acyc, reach := hpl.inv.reach }
      show ((((processList (maze_generation_dfs shuffle rows cols f) cur
        (shuffle st.ctr (check_adjacent_cells rows cols cur))
        { st with
          cells := updCell st.cells cur (fun c => { c with visited := true }),
          visited_cells := st.visited_cells ++ [cur],
          ctr := st.ctr + 1 }).stack).pop).2).items.length = rows * cols
      rw [pop_items]
      exact hpl.inv.slen
    · show ((((processList (maze_generation_dfs shuffle rows cols f) cur
        (shuffle st.ctr (check_adjacent_cells rows cols cur))
        { st with
          cells := updCell st.cells cur (fun c => { c with visited := true }),
          visited_cells := st.visited_cells ++ [cur],
          ctr := st.ctr + 1 }).stack).pop).2).stackpointer = (d : Int) - 1
      rw [pop_snd_sp _ (by rw [hpl.sp]; omega), hpl.sp]
    · intro p hp hpA q hq
      by_cases hpc : p = cur
      · subst hpc
        refine hpl.procd q ?_
        exact (hshuffle st.ctr (check_adjacent_cells rows cols p)).mem_iff.2 hq
      · exact hpl.closure p hp hpA hpc q hq

/-- The right neighbour is listed by `check_adjacent_cells` when in range. -/
theorem right_mem_check_adjacent (rows cols r c : Nat) (h : c + 1 < cols) :
    ((r, c + 1) : Pos) ∈ check_adjacent_cells rows cols (r, c) := by
  unfold check_adjacent_cells
  simp only [List.mem_append, List.mem_ite_nil_right, List.mem_singleton]
  exact Or.inl (Or.inl (Or.inr ⟨h, trivial⟩))

/-- The lower neighbour is listed by `check_adjacent_cells` when in range. -/
theorem below_mem_check_adjacent (rows cols r c : Nat) (h : r + 1 < rows) :
    ((r + 1, c) : Pos) ∈ check_adjacent_cells rows cols (r, c) := by
  unfold check_adjacent_cells
  simp only [List.mem_append, List.mem_ite_nil_right, List.mem_singleton]
  exact Or.inr ⟨h, trivial⟩

/-- The freshly initialised maze state satisfies the call precondition of the
first `maze_generation_dfs` call. -/
theorem init_pre (rows cols : Nat) (hr : 1 ≤ rows) (hc : 1 ≤ cols) :
    GenPre rows cols (initGenState rows cols) (0, 0) [] 0 := by
  have hN : 1 ≤ rows * cols := Nat.mul_pos hr hc
  have hpush : (Stack.make Pos (rows * cols)).push ((0, 0) : Pos) =
      { items := (List.replicate (rows * cols) (none : Option Pos)).set 0
          (some (0, 0)),
        stackpointer := 0 } := by
    rw [push_of_not_full _ _ (show (-1 : Int) ≠
      (((List.replicate (rows * cols) (none : Option Pos)).length : Int)) - 1 by
        rw [List.length_replicate]
        omega)]
    rfl
  refine { inv := ?_, hpeek := ?_, hsp := ?_, hd := rfl,
           hAsub := ?_, hAnd := List.nodup_nil, hcurA := List.not_mem_nil _,
           hcurV := List.not_mem_nil _, hcurG := ⟨hr, hc⟩,
           hreach := Relation.ReflTransGen.refl, hint := ?_, hec := ?_,
           hclo := ?_ }
  · refine { slen := ?_, nd := List.nodup_nil, vgrid := ?_, flags := ?_,
             sym := ?_, acyc := ?_, reach := ?_ }
    · show ((Stack.make Pos (rows * cols)).push (0, 0)).items.length =
        rows * cols
      rw [push_items_length]
      show (List.replicate (rows * cols) (none : Option Pos)).length =
        rows * cols
      rw [List.length_replicate]
    · intro p hp
      exact absurd hp (List.not_mem_nil p)
    · intro p
      show ((Cell.init).visited = true) ↔ p ∈ ([] : List Pos)
      simp [Cell.init]
    · intro p hp
      exact ⟨fun _ => rfl, fun _ => rfl⟩
    · have hbot : openGraph rows cols (fun _ => Cell.init) = ⊥ := by
        ext p q
        constructor
        · rintro ⟨-, -, ⟨-, h1, -⟩ | ⟨-, h1, -⟩ | ⟨-, h1, -⟩ | ⟨-, h1, -⟩⟩ <;>
            exact Bool.noConfusion h1
        · intro h
          exact h.elim
      show (openGraph rows cols (fun _ => Cell.init)).IsAcyclic
      rw [hbot]
      exact SimpleGraph.isAcyclic_bot
    · intro p hp
      exact absurd hp (List.not_mem_nil p)
  · show ((Stack.make Pos (rows * cols)).push (0, 0)).peek =
      some (some ((0, 0) : Pos))
    rw [hpush]
    show pyIndex ((List.replicate (rows * cols) (none : Option Pos)).set 0
      (some (0, 0))) 0 = some (some (0, 0))
    unfold pyIndex
    rw [if_pos le_rfl, show ((0 : Int)).toNat = 0 from rfl,
      List.getElem?_set_eq_of_lt _ (by rw [List.length_replicate]; omega)]
  · show ((Stack.make Pos (rows * cols)).push (0, 0)).stackpointer =
      ((0 : Nat) : Int)
    rw [hpush]
    rfl
  · intro p hp
    exact absurd hp (List.not_mem_nil p)
  · intro p _ _
    exact ⟨rfl, rfl, rfl, rfl⟩
  · show openEdgeCount rows cols (fun _ => Cell.init) = ([] : List Pos).length
    refine Finset.sum_eq_zero ?_
    intro p _
    rw [if_neg (fun hcon : p.2 + 1 < cols ∧
          openRight (fun _ => Cell.init) p => Bool.noConfusion hcon.2.1),
      if_neg (fun hcon : p.1 + 1 < rows ∧
          openBelow (fun _ => Cell.init) p => Bool.noConfusion hcon.2.1)]
    rfl
  · intro p hp
    exact absurd hp (List.not_mem_nil p)

/-- The completed generation run: its postcondition, plus the facts that the
visited list enumerates exactly the grid. -/
theorem gen_final_spec (shuffle : Nat → List Pos → List Pos)
    (hshuffle : ∀ n l, List.Perm (shuffle n l) l) (rows cols : Nat)
    (hr : 1 ≤ rows) (hc : 1 ≤ cols) :
    GenOut rows cols (initGenState rows cols) (genRun shuffle rows cols)
      (0, 0) [] 0 ∧
    (∀ p : Pos, p ∈ (genRun shuffle rows cols).visited_cells ↔
      InGrid rows cols p) ∧
    (genRun shuffle rows cols).visited_cells.length = rows * cols := by
  have hout : GenOut rows cols (initGenState rows cols)
      (genRun shuffle rows cols) (0, 0) [] 0 :=
    gen_dfs_spec shuffle hshuffle rows cols (rows * cols)
      (initGenState rows cols) (0, 0) [] 0 (init_pre rows cols hr hc)
      (by omega)
  have hstep : ∀ p ∈ (genRun shuffle rows cols).visited_cells,
      ∀ q ∈ check_adjacent_cells rows cols p,
        q ∈ (genRun shuffle rows cols).visited_cells :=
    fun p hp => hout.closure p hp (List.not_mem_nil p)
  have hrow : ∀ r, r < rows →
      ((r, 0) : Pos) ∈ (genRun shuffle rows cols).visited_cells := by
    intro r
    induction r with
    | zero =>
      intro _
      exact hout.curIn
    | succ r ihr =>
      intro hrr
      exact hstep (r, 0) (ihr (by omega)) (r + 1, 0)
        (below_mem_check_adjacent rows cols r 0 hrr)
  have hcol : ∀ c r, r < rows → c < cols →
      ((r, c) : Pos) ∈ (genRun shuffle rows cols).visited_cells := by
    intro c
    induction c with
    | zero =>
      intro r hr2 _
      exact hrow r hr2
    | succ c ihc =>
      intro r hr2 hcc
      exact hstep (r, c) (ihc r hr2 (by omega)) (r, c + 1)
        (right_mem_check_adjacent rows cols r c hcc)
  have hall : ∀ p : Pos, InGrid rows cols p →
      p ∈ (genRun shuffle rows cols).visited_cells := by
    rintro ⟨r, c⟩ ⟨h1, h2⟩
    exact hcol c r h1 h2
  have hiff : ∀ p : Pos, p ∈ (genRun shuffle rows cols).visited_cells ↔
      InGrid rows cols p :=
    fun p => ⟨fun h => hout.inv.vgrid p h, fun h => hall p h⟩
  have hfin : (genRun shuffle rows cols).visited_cells.toFinset =
      Finset.range rows ×ˢ Finset.range cols := by
    apply Finset.Subset.antisymm
    · intro p hp
      rw [List.mem_toFinset] at hp
      rw [Finset.mem_product, Finset.mem_range, Finset.mem_range]
      exact hout.inv.vgrid p hp
    · intro p hp
      rw [Finset.mem_product, Finset.mem_range, Finset.mem_range] at hp
      rw [List.mem_toFinset]
      exact hall p hp
  have hlen : (genRun shuffle rows cols).visited_cells.length =
      rows * cols := by
    have h1 := List.toFinset_card_of_nodup hout.inv.nd
    rw [hfin, Finset.card_product, Finset.card_range, Finset.card_range] at h1
    omega
  exact ⟨hout, hiff, hlen⟩

/-- Claim C1: for every grid with `rows, cols ≥ 1` and every permutation
shuffle oracle, after `maze_generation_dfs` completes the open-edge graph has
exactly `rows * cols - 1` open edges, contains no cycle, and every in-grid
cell is reachable from every other along open edges: it is a spanning tree
over all cells. -/
theorem C1_spanning_tree (shuffle : Nat → List Pos → List Pos)
    (hshuffle : ∀ n l, List.Perm (shuffle n l) l) (rows cols : Nat)
    (hr : 1 ≤ rows) (hc : 1 ≤ cols) :
    openEdgeCount rows cols (genRun shuffle rows cols).cells =
      rows * cols - 1 ∧
    (openGraph rows cols (genRun shuffle rows cols).cells).IsAcyclic ∧
    ∀ p q : Pos, InGrid rows cols p → InGrid rows cols q →
      ReachOpen rows cols (genRun shuffle rows cols).cells p q := by
  obtain ⟨hout, hiff, hlen⟩ := gen_final_spec shuffle hshuffle rows cols hr hc
  refine ⟨?_, hout.inv.acyc, ?_⟩
  · have h := hout.ec
    omega
  · intro p q hp hq
    have h1 := hout.inv.reach p ((hiff p).2 hp)
    have h2 := hout.inv.reach q ((hiff q).2 hq)
    have hsymm : Symmetric (fun a b =>
        openAdj rows cols (genRun shuffle rows cols).cells a b) :=
      fun a b hab => openAdj_symm hab
    exact Relation.ReflTransGen.trans
      (Relation.ReflTransGen.symmetric hsymm h1) h2

/-- Witness for C1: the 2×2 generation run with the identity shuffle yields a
3-edge acyclic graph connecting all four cells. -/
theorem C1_spanning_tree_witness :
    openEdgeCount 2 2 (genRun idShuffle 2 2).cells = 2 * 2 - 1 ∧
    (openGraph 2 2 (genRun idShuffle 2 2).cells).IsAcyclic ∧
    ∀ p q : Pos, InGrid 2 2 p → InGrid 2 2 q →
      ReachOpen 2 2 (genRun idShuffle 2 2).cells p q :=
  C1_spanning_tree idShuffle (fun n l => List.Perm.refl l) 2 2
    (by decide) (by decide)

/-- Claim C8: during maze generation every cell's `visited` flag goes from
false to true exactly once: the visited list never records a cell twice, it
covers exactly the grid when generation terminates, and the cell flags agree
with it. -/
theorem C8_visited_once (shuffle : Nat → List Pos → List Pos)
    (hshuffle : ∀ n l, List.Perm (shuffle n l) l) (rows cols : Nat)
    (hr : 1 ≤ rows) (hc : 1 ≤ cols) :
    (genRun shuffle rows cols).visited_cells.Nodup ∧
    (∀ p : Pos, p ∈ (genRun shuffle rows cols).visited_cells ↔
      InGrid rows cols p) ∧
    (∀ p : Pos, (((genRun shuffle rows cols).cells p).visited = true) ↔
      p ∈ (genRun shuffle rows cols).visited_cells) := by
  obtain ⟨hout, hiff, -⟩ := gen_final_spec shuffle hshuffle rows cols hr hc
  exact ⟨hout.inv.nd, hiff, hout.inv.flags⟩

/-- Witness for C8: on the 2×2 grid with the identity shuffle the visited
list is duplicate-free, covers the grid, and matches the flags. -/
theorem C8_visited_once_witness :
    (genRun idShuffle 2 2).visited_cells.Nodup ∧
    (∀ p : Pos, p ∈ (genRun idShuffle 2 2).visited_cells ↔ InGrid 2 2 p) ∧
    (∀ p : Pos, (((genRun idShuffle 2 2).cells p).visited = true) ↔
      p ∈ (genRun idShuffle 2 2).visited_cells) :=
  C8_visited_once idShuffle (fun n l => List.Perm.refl l) 2 2
    (by decide) (by decide)

/-- Claim C2: wall symmetry is maintained by every wall mutation.  Any
grid-adjacent `remove_walls` call preserves the symmetry invariant; a
rightward (resp. downward) carve flips exactly the matching `right`/`left`
(resp. `bottom`/`top`) pair of the two cells and changes nothing else; and
the invariant holds of the cells produced by the generation run. -/
theorem C2_wall_symmetry (shuffle : Nat → List Pos → List Pos)
    (hshuffle : ∀ n l, List.Perm (shuffle n l) l) (rows cols : Nat)
    (hr : 1 ≤ rows) (hc : 1 ≤ cols) :
    (∀ (m : CellMap) (cur nxt : Pos), GridAdjacent cur nxt →
      WallSym rows cols m → WallSym rows cols (remove_walls m cur nxt)) ∧
    (∀ (m : CellMap) (c p : Pos), remove_walls m c (rightOf c) p =
      if p = c then { m c with right := false }
      else if p = rightOf c then { m (rightOf c) with left := false }
      else m p) ∧
    (∀ (m : CellMap) (c p : Pos), remove_walls m c (belowOf c) p =
      if p = c then { m c with bottom := false }
      else if p = belowOf c then { m (belowOf c) with top := false }
      else m p) ∧
    WallSym rows cols (genRun shuffle rows cols).cells := by
  obtain ⟨hout, -, -⟩ := gen_final_spec shuffle hshuffle rows cols hr hc
  exact ⟨fun m cur nxt hadj hs => wallSym_remove_walls hadj hs,
    remove_walls_rightOf_fields, remove_walls_belowOf_fields, hout.inv.sym⟩

/-- Witness for C2: the 2×2 instance of the wall-symmetry claim. -/
theorem C2_wall_symmetry_witness :
    (∀ (m : CellMap) (cur nxt : Pos), GridAdjacent cur nxt →
      WallSym 2 2 m → WallSym 2 2 (remove_walls m cur nxt)) ∧
    (∀ (m : CellMap) (c p : Pos), remove_walls m c (rightOf c) p =
      if p = c then { m c with right := false }
      else if p = rightOf c then { m (rightOf c) with left := false }
      else m p) ∧
    (∀ (m : CellMap) (c p : Pos), remove_walls m c (belowOf c) p =
      if p = c then { m c with bottom := false }
      else if p = belowOf c then { m (belowOf c) with top := false }
      else m p) ∧
    WallSym 2 2 (genRun idShuffle 2 2).cells :=
  C2_wall_symmetry idShuffle (fun n l => List.Perm.refl l) 2 2
    (by decide) (by decide)

end BrainMaze
